import Mathlib

/-!
Verification of the HFTBackTester core against its specification.

The definitions below are a shallow embedding of the Python sources under
`src/mm_bt/`: machine integers are modelled as `Int` (with explicit range
checks where the code performs them), `Decimal` values as integer
mantissa/exponent pairs, byte strings as `List Nat` (each element a byte
value), and fallible code as `Except BTError`.  Note that Lean's `/` and `%`
on `Int` are Euclidean division, which agrees with Python's floor division
and `divmod` whenever the divisor is positive, as it is at every division
site in this code.
-/

set_option maxHeartbeats 1000000

/-- Error hierarchy from `mm_bt/core/errors.py`.  Each constructor carries the
message string the Python code would raise. -/
inductive BTError where
  | schema (msg : String)
  | ordering (msg : String)
  | quantization (msg : String)
  deriving DecidableEq, Repr

/-- Decidable equality on `Except`, used to state and check concrete
outcomes of the embedded fallible functions. -/
instance {e a : Type} [DecidableEq e] [DecidableEq a] :
    DecidableEq (Except e a) := fun x y =>
  match x, y with
  | .ok u, .ok v =>
    if h : u = v then isTrue (by rw [h])
    else isFalse (by intro hc; cases hc; exact h rfl)
  | .error u, .error v =>
    if h : u = v then isTrue (by rw [h])
    else isFalse (by intro hc; cases hc; exact h rfl)
  | .ok _, .error _ => isFalse (by intro hc; cases hc)
  | .error _, .ok _ => isFalse (by intro hc; cases hc)

/-- Side enum from `mm_bt/core/types.py` (`BID=0`, `ASK=1`). -/
inductive Side where
  | bid
  | ask
  deriving DecidableEq, Repr

/-- Integer value of a side, mirroring the `IntEnum` values. -/
def Side.toInt : Side → Int
  | .bid => 0
  | .ask => 1

/-! ## Metrics: `mm_bt/metrics/pnl.py` -/

/-- Embeds `_round_half_even(numer, denom)` from `mm_bt/metrics/pnl.py`:
banker's rounding of `numer / denom`, computed on the absolute value and
re-signed, failing when `denom ≤ 0`. -/
def round_half_even (numer denom : Int) : Except BTError Int :=
  if denom ≤ 0 then .error (.schema "denom must be positive")
  else
    let sign : Int := if numer < 0 then -1 else 1
    let n : Int := if numer < 0 then -numer else numer
    let q := n / denom
    let r := n % denom
    let q2 := if 2 * r > denom then q + 1
      else if 2 * r = denom ∧ q % 2 = 1 then q + 1
      else q
    .ok (sign * q2)

/-- Loop body of `returns_from_equity`: one banker's rounding per
`(prev, current)` pair, results in order, first failure propagated. -/
def returnsLoop (C : Int) : List (Int × Int) → Except BTError (List Int)
  | [] => .ok []
  | p :: t =>
    match round_half_even ((p.2 - p.1) * 10000) C with
    | .error e => .error e
    | .ok r =>
      match returnsLoop C t with
      | .error e => .error e
      | .ok rs => .ok (r :: rs)

/-- Embeds `returns_from_equity(equity, initial_cash)` from
`mm_bt/metrics/pnl.py`: per-step returns in bps of `initial_cash`.
The Python loop over `(prev, current)` pairs walks `equity.zip equity.tail`. -/
def returns_from_equity (equity : List Int) (initial_cash : Int) :
    Except BTError (List Int) :=
  if initial_cash ≤ 0 then .error (.schema "initial_cash must be positive")
  else if equity.length < 2 then
    .error (.schema "insufficient equity points for returns")
  else
    returnsLoop initial_cash (equity.zip equity.tail)

/-- Characterisation of banker's rounding of `n / d`: the result is within
half a denominator of the exact quotient, and an exact tie forces an even
result.  These two properties determine the value uniquely. -/
def IsNearestHalfEven (r n d : Int) : Prop :=
  2 * |r * d - n| ≤ d ∧ (2 * |r * d - n| = d → r % 2 = 0)

theorem rhe_core_spec (m d : Int) (hd : 0 < d) :
    IsNearestHalfEven (if 2 * (m % d) > d then m / d + 1
      else if 2 * (m % d) = d ∧ (m / d) % 2 = 1 then m / d + 1 else m / d) m d := by
  have h1 : d * (m / d) + m % d = m := Int.ediv_add_emod m d
  have hr0 : 0 ≤ m % d := Int.emod_nonneg m (by omega)
  have hrd : m % d < d := Int.emod_lt_of_pos m hd
  have e1 : (m / d + 1) * d - m = d - m % d := by linarith
  have e2 : (m / d) * d - m = -(m % d) := by linarith
  constructor
  · split
    · rw [e1, abs_of_nonneg (by omega)]
      omega
    · split
      · rw [e1, abs_of_nonneg (by omega)]
        omega
      · rw [e2, abs_neg, abs_of_nonneg hr0]
        omega
  · intro htie
    split at htie
    · rw [e1, abs_of_nonneg (by omega)] at htie
      omega
    · rename_i hgt
      split at htie
      · rename_i hcond
        rw [e1, abs_of_nonneg (by omega)] at htie
        rw [if_neg hgt, if_pos hcond]
        omega
      · rename_i hcond
        rw [e2, abs_neg, abs_of_nonneg hr0] at htie
        rw [if_neg hgt, if_neg hcond]
        have hne : ¬ ((m / d) % 2 = 1) := fun h => hcond ⟨htie, h⟩
        omega

theorem round_half_even_spec (n d : Int) (hd : 0 < d) :
    ∃ r, round_half_even n d = .ok r ∧ IsNearestHalfEven r n d := by
  by_cases hn : n < 0
  · refine ⟨-(if 2 * ((-n) % d) > d then (-n) / d + 1
      else if 2 * ((-n) % d) = d ∧ ((-n) / d) % 2 = 1 then (-n) / d + 1
      else (-n) / d), ?_, ?_, ?_⟩
    · simp only [round_half_even, if_neg (by omega : ¬ d ≤ 0), if_pos hn]
      congr 1
      ring
    · have h := (rhe_core_spec (-n) d hd).1
      calc 2 * |(-(if 2 * ((-n) % d) > d then (-n) / d + 1
            else if 2 * ((-n) % d) = d ∧ ((-n) / d) % 2 = 1 then (-n) / d + 1
            else (-n) / d)) * d - n|
          = 2 * |(if 2 * ((-n) % d) > d then (-n) / d + 1
            else if 2 * ((-n) % d) = d ∧ ((-n) / d) % 2 = 1 then (-n) / d + 1
            else (-n) / d) * d - (-n)| := by
            rw [show (-(if 2 * ((-n) % d) > d then (-n) / d + 1
              else if 2 * ((-n) % d) = d ∧ ((-n) / d) % 2 = 1 then (-n) / d + 1
              else (-n) / d)) * d - n
              = -((if 2 * ((-n) % d) > d then (-n) / d + 1
              else if 2 * ((-n) % d) = d ∧ ((-n) / d) % 2 = 1 then (-n) / d + 1
              else (-n) / d) * d - (-n)) by ring, abs_neg]
        _ ≤ d := h
    · intro htie
      have habs : |(-(if 2 * ((-n) % d) > d then (-n) / d + 1
            else if 2 * ((-n) % d) = d ∧ ((-n) / d) % 2 = 1 then (-n) / d + 1
            else (-n) / d)) * d - n|
          = |(if 2 * ((-n) % d) > d then (-n) / d + 1
            else if 2 * ((-n) % d) = d ∧ ((-n) / d) % 2 = 1 then (-n) / d + 1
            else (-n) / d) * d - (-n)| := by
        rw [show (-(if 2 * ((-n) % d) > d then (-n) / d + 1
          else if 2 * ((-n) % d) = d ∧ ((-n) / d) % 2 = 1 then (-n) / d + 1
          else (-n) / d)) * d - n
          = -((if 2 * ((-n) % d) > d then (-n) / d + 1
          else if 2 * ((-n) % d) = d ∧ ((-n) / d) % 2 = 1 then (-n) / d + 1
          else (-n) / d) * d - (-n)) by ring, abs_neg]
      rw [habs] at htie
      have := (rhe_core_spec (-n) d hd).2 htie
      omega
  · refine ⟨(if 2 * (n % d) > d then n / d + 1
      else if 2 * (n % d) = d ∧ (n / d) % 2 = 1 then n / d + 1
      else n / d), ?_, ?_⟩
    · simp only [round_half_even, if_neg (by omega : ¬ d ≤ 0), if_neg hn]
      congr 1
      ring
    · exact rhe_core_spec n d hd

theorem zip_tail_getD : ∀ (l : List Int) (i : Nat), i < (l.zip l.tail).length →
    (l.zip l.tail).getD i (0, 0) = (l.getD i 0, l.getD (i + 1) 0) := by
  intro l
  induction l with
  | nil => intro i h; simp at h
  | cons a t ih =>
    intro i h
    cases t with
    | nil => simp at h
    | cons b t2 =>
      cases i with
      | zero => simp [List.getD]
      | succ i2 =>
        simp only [List.tail_cons, List.zip_cons_cons, List.getD_cons_succ,
          List.length_cons] at h ⊢
        exact ih i2 (by simpa using Nat.lt_of_succ_lt_succ h)

theorem zip_tail_telescope : ∀ (l : List Int), l ≠ [] →
    ((l.zip l.tail).map (fun p => p.2 - p.1)).sum
      = l.getD (l.length - 1) 0 - l.getD 0 0 := by
  intro l
  induction l with
  | nil => intro h; exact absurd rfl h
  | cons a t ih =>
    intro _
    cases t with
    | nil => simp
    | cons b t2 =>
      have hrec := ih (by simp)
      simp only [List.tail_cons, List.zip_cons_cons, List.map_cons,
        List.sum_cons, List.length_cons] at hrec ⊢
      rw [show t2.length + 1 + 1 - 1 = (t2.length + 1 - 1) + 1 by omega,
        List.getD_cons_succ]
      rw [hrec]
      simp only [List.getD_cons_zero]
      ring

theorem mapM_rhe (C : Int) (hC : 0 < C) : ∀ ps : List (Int × Int),
    ∃ rs, returnsLoop C ps = .ok rs ∧
      rs.length = ps.length ∧
      (∀ i, i < ps.length → IsNearestHalfEven (rs.getD i 0)
        (((ps.getD i (0, 0)).2 - (ps.getD i (0, 0)).1) * 10000) C) ∧
      2 * |rs.sum * C - ((ps.map (fun p => p.2 - p.1)).sum) * 10000|
        ≤ (ps.length : Int) * C := by
  intro ps
  induction ps with
  | nil =>
    refine ⟨[], rfl, by simp, by simp, by simp⟩
  | cons p t ih =>
    obtain ⟨rs, hok, hlen, hidx, hsum⟩ := ih
    obtain ⟨r, hr, hnear⟩ := round_half_even_spec ((p.2 - p.1) * 10000) C hC
    refine ⟨r :: rs, ?_, by simp [hlen], ?_, ?_⟩
    · simp only [returnsLoop, hr, hok]
    · intro i hi
      cases i with
      | zero => simpa using hnear
      | succ i2 =>
        simp only [List.getD_cons_succ]
        exact hidx i2 (by simpa using Nat.lt_of_succ_lt_succ (by simpa using hi))
    · simp only [List.sum_cons, List.map_cons, List.length_cons]
      have h1 : 2 * |r * C - (p.2 - p.1) * 10000| ≤ C := hnear.1
      have heq : (r + rs.sum) * C
            - ((p.2 - p.1) + (t.map (fun p => p.2 - p.1)).sum) * 10000
          = (r * C - (p.2 - p.1) * 10000)
            + (rs.sum * C - (t.map (fun p => p.2 - p.1)).sum * 10000) := by
        ring
      rw [heq]
      have htri := abs_add (r * C - (p.2 - p.1) * 10000)
        (rs.sum * C - (t.map (fun p => p.2 - p.1)).sum * 10000)
      push_cast
      linarith

/-- C9: for an equity curve of at least two integer points and initial_cash
strictly positive, `returns_from_equity` yields one return per consecutive
pair, each the nearest integer to `(Δequity × 10000) / initial_cash` with
ties to even, the sum of returns approximates the bps-scaled total equity
change within the accumulated per-step rounding residues (half a denominator
each), and the function fails when `initial_cash ≤ 0` or fewer than two
points are given. -/
theorem c9_returns_from_equity (equity : List Int) (C : Int) :
    ((C ≤ 0 ∨ equity.length < 2) →
      ∃ m, returns_from_equity equity C = .error (.schema m)) ∧
    (0 < C → 2 ≤ equity.length →
      ∃ rs, returns_from_equity equity C = .ok rs ∧
        rs.length = equity.length - 1 ∧
        (∀ i, i < rs.length →
          IsNearestHalfEven (rs.getD i 0)
            ((equity.getD (i + 1) 0 - equity.getD i 0) * 10000) C) ∧
        2 * |rs.sum * C
            - (equity.getD (equity.length - 1) 0 - equity.getD 0 0) * 10000|
          ≤ ((equity.length : Int) - 1) * C) := by
  constructor
  · intro h
    unfold returns_from_equity
    rcases h with h | h
    · rw [if_pos h]; exact ⟨_, rfl⟩
    · by_cases hC : C ≤ 0
      · rw [if_pos hC]; exact ⟨_, rfl⟩
      · rw [if_neg hC, if_pos h]; exact ⟨_, rfl⟩
  · intro hC hlen
    obtain ⟨rs, hok, hlen2, hidx, hsum⟩ :=
      mapM_rhe C hC (equity.zip equity.tail)
    have hzlen : (equity.zip equity.tail).length = equity.length - 1 := by
      rw [List.length_zip, List.length_tail]
      omega
    refine ⟨rs, ?_, by omega, ?_, ?_⟩
    · unfold returns_from_equity
      rw [if_neg (by omega), if_neg (by omega)]
      exact hok
    · intro i hi
      have hi2 : i < (equity.zip equity.tail).length := by omega
      have := hidx i hi2
      rwa [zip_tail_getD equity i hi2] at this
    · have hne : equity ≠ [] := by
        cases equity
        · simp at hlen
        · simp
      rw [zip_tail_telescope equity hne] at hsum
      rw [hzlen] at hsum
      have hcast : ((equity.length - 1 : Nat) : Int) = (equity.length : Int) - 1 := by
        omega
      rw [hcast] at hsum
      exact hsum

/-! ## Portfolio, fees, execution: `mm_bt/sim/portfolio.py`, `fees.py`,
`exchange.py` -/

/-- Portfolio ledger state from `mm_bt/sim/portfolio.py`. -/
structure Portfolio where
  cash : Int
  position : Int
  deriving DecidableEq, Repr

/-- Embeds `Portfolio.apply_fill`: validates the fill fields, re-checks the
risk conditions, and mutates cash/position.  The mutation is modelled by
returning the new portfolio. -/
def apply_fill (p : Portfolio) (side : Side) (price_ticks qty_lots fee_atoms : Int)
    (allow_short allow_margin : Bool) : Except BTError Portfolio :=
  if qty_lots ≤ 0 then .error (.schema "qty_lots must be positive")
  else if price_ticks ≤ 0 then .error (.schema "price_ticks must be positive")
  else
    let notional := price_ticks * qty_lots
    if fee_atoms < 0 then .error (.schema "fee_atoms must be non-negative")
    else
      match side with
      | .bid =>
        if allow_margin = false ∧ p.cash < notional + fee_atoms then
          .error (.schema "insufficient cash for buy")
        else .ok ⟨p.cash - (notional + fee_atoms), p.position + qty_lots⟩
      | .ask =>
        if allow_short = false ∧ p.position < qty_lots then
          .error (.schema "insufficient position for sell")
        else .ok ⟨p.cash + (notional - fee_atoms), p.position - qty_lots⟩

/-- Embeds `FixedBpsFeeModel.fee_atoms`: `floor(notional × bps / 10000)` with
a non-negativity check on the notional.  The model's constructor enforces
`0 ≤ bps ≤ 10000`; theorems carry that as a hypothesis. -/
def fee_atoms (bps notional : Int) : Except BTError Int :=
  if notional < 0 then .error (.schema "notional must be non-negative")
  else .ok (notional * bps / 10000)

/-- Top-of-book snapshot handed to the strategy and execution code
(`mm_bt/strategy/api.py`). -/
structure BookSnapshot where
  bid_px : Int
  bid_qty : Int
  ask_px : Int
  ask_qty : Int
  deriving DecidableEq, Repr

/-- Fill record from `mm_bt/sim/exchange.py`. -/
structure Fill where
  ts_recv_ns : Int
  side : Side
  price_ticks : Int
  qty_lots : Int
  notional : Int
  fee_atoms : Int
  deriving DecidableEq, Repr

/-- Embeds `_execute_market_order` from `mm_bt/sim/exchange.py`: size gate
against the counterparty top-of-book, fee computation, risk checks with the
`ignore_risk_rejects` soft path (returning `none` and the unchanged
portfolio), then the portfolio mutation and fill construction. -/
def execute_market_order (ts_recv_ns : Int) (orderSide : Side) (qty_lots : Int)
    (book : BookSnapshot) (p : Portfolio) (bps : Int)
    (allow_short allow_margin ignore_risk_rejects : Bool) :
    Except BTError (Option Fill × Portfolio) :=
  if qty_lots ≤ 0 then .error (.schema "qty_lots must be positive")
  else
    let price := match orderSide with | .bid => book.ask_px | .ask => book.bid_px
    let available := match orderSide with
      | .bid => book.ask_qty
      | .ask => book.bid_qty
    if qty_lots > available then
      .error (.schema "market order exceeds top-of-book size")
    else
      let notional := price * qty_lots
      match fee_atoms bps notional with
      | .error e => .error e
      | .ok fee =>
        let rejected : Bool := match orderSide with
          | .bid => decide (allow_margin = false ∧ p.cash < notional + fee)
          | .ask => decide (allow_short = false ∧ p.position < qty_lots)
        if rejected then
          if ignore_risk_rejects then .ok (none, p)
          else match orderSide with
            | .bid => .error (.schema "insufficient cash for buy")
            | .ask => .error (.schema "insufficient position for sell")
        else
          match apply_fill p orderSide price qty_lots fee allow_short allow_margin with
          | .error e => .error e
          | .ok p2 =>
            .ok (some ⟨ts_recv_ns, orderSide, price, qty_lots, notional, fee⟩, p2)

/-- C3: for a market order executed against a ready book snapshot, a buy
requires `cash ≥ notional + fee` unless `allow_margin` and a sell requires
`position ≥ qty` unless `allow_short`; on a risk-check failure the order
produces no fill, the portfolio is unchanged, and the engine skips silently
exactly when `ignore_risk_rejects` is set (otherwise the run fails); on
success cash and position change by exactly the fill's notional, fee and
quantity. -/
theorem c3_market_order_risk (ts : Int) (s : Side) (qty : Int)
    (book : BookSnapshot) (p : Portfolio) (bps : Int)
    (ash am irr : Bool)
    (hbps0 : 0 ≤ bps)
    (hbp : 0 < book.bid_px) (hap : 0 < book.ask_px)
    (hq0 : 0 < qty)
    (hqa : qty ≤ (match s with | .bid => book.ask_qty | .ask => book.bid_qty)) :
    (((s = .bid ∧ am = false ∧
        p.cash < book.ask_px * qty + book.ask_px * qty * bps / 10000) ∨
      (s = .ask ∧ ash = false ∧ p.position < qty)) →
      (irr = true →
        execute_market_order ts s qty book p bps ash am irr = .ok (none, p)) ∧
      (irr = false →
        ∃ m, execute_market_order ts s qty book p bps ash am irr
          = .error (.schema m))) ∧
    (¬ ((s = .bid ∧ am = false ∧
        p.cash < book.ask_px * qty + book.ask_px * qty * bps / 10000) ∨
      (s = .ask ∧ ash = false ∧ p.position < qty)) →
      ∃ f p2, execute_market_order ts s qty book p bps ash am irr
          = .ok (some f, p2) ∧
        f.qty_lots = qty ∧ f.side = s ∧
        f.price_ticks = (match s with | .bid => book.ask_px | .ask => book.bid_px) ∧
        f.notional = f.price_ticks * qty ∧
        f.fee_atoms = f.notional * bps / 10000 ∧
        (s = .bid → p2.cash = p.cash - (f.notional + f.fee_atoms) ∧
          p2.position = p.position + qty) ∧
        (s = .ask → p2.cash = p.cash + (f.notional - f.fee_atoms) ∧
          p2.position = p.position - qty)) := by
  have hfee : ∀ x : Int, 0 ≤ x → 0 ≤ x * bps / 10000 := by
    intro x hx
    exact Int.ediv_nonneg (mul_nonneg hx hbps0) (by omega)
  cases s with
  | bid =>
    have hqa2 : qty ≤ book.ask_qty := hqa
    have hnot0 : 0 ≤ book.ask_px * qty := by positivity
    constructor
    · rintro (⟨-, ham, hcash⟩ | ⟨h, -, -⟩)
      · constructor
        · intro hirr
          simp only [execute_market_order, fee_atoms, if_neg (by omega : ¬ qty ≤ 0),
            if_neg (by omega : ¬ qty > book.ask_qty), if_neg (by omega :
              ¬ book.ask_px * qty < 0)]
          rw [if_pos (by simp [ham, hcash]), if_pos (by simp [hirr])]
        · intro hirr
          simp only [execute_market_order, fee_atoms, if_neg (by omega : ¬ qty ≤ 0),
            if_neg (by omega : ¬ qty > book.ask_qty), if_neg (by omega :
              ¬ book.ask_px * qty < 0)]
          rw [if_pos (by simp [ham, hcash]), if_neg (by simp [hirr])]
          exact ⟨_, rfl⟩
      · exact absurd h (by simp)
    · intro hok
      push_neg at hok
      have hcond : ¬ (am = false ∧
          p.cash < book.ask_px * qty + book.ask_px * qty * bps / 10000) := by
        intro ⟨h1, h2⟩
        exact absurd h2 (by simpa using (hok.1 rfl h1))
      simp only [execute_market_order, fee_atoms, if_neg (by omega : ¬ qty ≤ 0),
        if_neg (by omega : ¬ qty > book.ask_qty),
        if_neg (by omega : ¬ book.ask_px * qty < 0)]
      rw [if_neg (by simpa using hcond)]
      simp only [apply_fill, if_neg (by omega : ¬ qty ≤ 0),
        if_neg (by omega : ¬ book.ask_px ≤ 0),
        if_neg (not_lt.mpr (hfee _ hnot0))]
      rw [if_neg hcond]
      refine ⟨_, _, rfl, rfl, rfl, rfl, rfl, rfl, ?_, ?_⟩
      · intro _; exact ⟨rfl, rfl⟩
      · intro h; exact absurd h (by simp)
  | ask =>
    have hqa2 : qty ≤ book.bid_qty := hqa
    have hnot0 : 0 ≤ book.bid_px * qty := by positivity
    constructor
    · rintro (⟨h, -, -⟩ | ⟨-, hsh, hpos⟩)
      · exact absurd h (by simp)
      · constructor
        · intro hirr
          simp only [execute_market_order, fee_atoms, if_neg (by omega : ¬ qty ≤ 0),
            if_neg (by omega : ¬ qty > book.bid_qty),
            if_neg (by omega : ¬ book.bid_px * qty < 0)]
          rw [if_pos (by simp [hsh, hpos]), if_pos (by simp [hirr])]
        · intro hirr
          simp only [execute_market_order, fee_atoms, if_neg (by omega : ¬ qty ≤ 0),
            if_neg (by omega : ¬ qty > book.bid_qty),
            if_neg (by omega : ¬ book.bid_px * qty < 0)]
          rw [if_pos (by simp [hsh, hpos]), if_neg (by simp [hirr])]
          exact ⟨_, rfl⟩
    · intro hok
      push_neg at hok
      have hcond : ¬ (ash = false ∧ p.position < qty) := by
        intro ⟨h1, h2⟩
        exact absurd h2 (by simpa using (hok.2 rfl h1))
      simp only [execute_market_order, fee_atoms, if_neg (by omega : ¬ qty ≤ 0),
        if_neg (by omega : ¬ qty > book.bid_qty),
        if_neg (by omega : ¬ book.bid_px * qty < 0)]
      rw [if_neg (by simpa using hcond)]
      simp only [apply_fill, if_neg (by omega : ¬ qty ≤ 0),
        if_neg (by omega : ¬ book.bid_px ≤ 0),
        if_neg (not_lt.mpr (hfee _ hnot0))]
      rw [if_neg hcond]
      refine ⟨_, _, rfl, rfl, rfl, rfl, rfl, rfl, ?_, ?_⟩
      · intro h; exact absurd h (by simp)
      · intro _; exact ⟨rfl, rfl⟩

theorem c9_returns_from_equity_witness :
    ∃ rs, returns_from_equity [1000, 990, 990] 100 = .ok rs ∧
      rs.length = [1000, 990, 990].length - 1 ∧
      (∀ i, i < rs.length → IsNearestHalfEven (rs.getD i 0)
        ((([1000, 990, 990] : List Int).getD (i + 1) 0
          - ([1000, 990, 990] : List Int).getD i 0) * 10000) 100) ∧
      2 * |rs.sum * 100
          - (([1000, 990, 990] : List Int).getD ([1000, 990, 990].length - 1) 0
            - ([1000, 990, 990] : List Int).getD 0 0) * 10000|
        ≤ ((([1000, 990, 990] : List Int).length : Int) - 1) * 100 :=
  (c9_returns_from_equity [1000, 990, 990] 100).2 (by decide) (by decide)

theorem c3_market_order_risk_witness :
    (∃ f p2, execute_market_order 0 .bid 1 ⟨10, 5, 11, 5⟩ ⟨1000, 0⟩ 10
        false false false = .ok (some f, p2) ∧ f.qty_lots = 1) ∧
    (∃ m, execute_market_order 0 .bid 1 ⟨10, 5, 11, 5⟩ ⟨5, 0⟩ 10
        false false false = .error (.schema m)) := by
  constructor
  · obtain ⟨-, h2⟩ := c3_market_order_risk 0 .bid 1 ⟨10, 5, 11, 5⟩ ⟨1000, 0⟩ 10
      false false false (by decide) (by decide) (by decide) (by decide) (by decide)
    obtain ⟨f, p2, he, hq, -⟩ := h2 (by decide)
    exact ⟨f, p2, he, hq⟩
  · obtain ⟨h1, -⟩ := c3_market_order_risk 0 .bid 1 ⟨10, 5, 11, 5⟩ ⟨5, 0⟩ 10
      false false false (by decide) (by decide) (by decide) (by decide) (by decide)
    exact (h1 (by decide)).2 rfl

/-! ## Little-endian byte encoding, shared by `struct.pack`/`unpack` calls -/

/-- Packs `n` as `k` little-endian bytes (the unsigned `struct` codes
`B`, `H`, `I`, `Q` with k = 1, 2, 4, 8). -/
def encU : Nat → Nat → List Nat
  | 0, _ => []
  | k + 1, n => n % 256 :: encU k (n / 256)

/-- Unpacks a little-endian byte list as an unsigned integer. -/
def decU : List Nat → Nat
  | [] => 0
  | b :: t => b + 256 * decU t

/-- Packs a signed 64-bit integer as 8 little-endian two's-complement bytes
(`struct` code `q`). -/
def encI64 (i : Int) : List Nat :=
  encU 8 (i % 18446744073709551616).toNat

/-- Unpacks 8 little-endian bytes as a signed 64-bit integer. -/
def decI64 (bs : List Nat) : Int :=
  let u := decU bs
  if 9223372036854775808 ≤ u then (u : Int) - 18446744073709551616 else (u : Int)

@[simp] theorem encU_length (k n : Nat) : (encU k n).length = k := by
  induction k generalizing n with
  | zero => rfl
  | succ k ih => simp [encU, ih]

theorem decU_encU (k n : Nat) : decU (encU k n) = n % 256 ^ k := by
  induction k generalizing n with
  | zero => simp [encU, decU, Nat.mod_one]
  | succ k ih =>
    simp only [encU, decU, ih]
    rw [pow_succ']
    exact (Nat.mod_mul).symm

theorem decU_encU_of_lt {k n : Nat} (h : n < 256 ^ k) : decU (encU k n) = n := by
  rw [decU_encU, Nat.mod_eq_of_lt h]

@[simp] theorem encI64_length (i : Int) : (encI64 i).length = 8 := by
  simp [encI64]

theorem decI64_encI64 {i : Int} (h0 : -9223372036854775808 ≤ i)
    (h1 : i < 9223372036854775808) : decI64 (encI64 i) = i := by
  have hm0 : 0 ≤ i % 18446744073709551616 := Int.emod_nonneg i (by norm_num)
  have hm1 : i % 18446744073709551616 < 18446744073709551616 :=
    Int.emod_lt_of_pos i (by norm_num)
  have htn : ((i % 18446744073709551616).toNat : Int) = i % 18446744073709551616 :=
    Int.toNat_of_nonneg hm0
  have hlt : (i % 18446744073709551616).toNat < 256 ^ 8 := by
    have : (256 : Nat) ^ 8 = 18446744073709551616 := by norm_num
    omega
  unfold decI64 encI64
  rw [decU_encU_of_lt hlt]
  have hmod : i % 18446744073709551616 = i ∨
      i % 18446744073709551616 = i + 18446744073709551616 := by
    omega
  simp only []
  rcases hmod with hmod | hmod <;> split <;> rename_i hc <;> omega

/-! ## Time index: `mm_bt/evlog/index.py` -/

/-- Index entry `(ts_recv_ns, offset)` from `mm_bt/evlog/index.py`. -/
structure IndexEntry where
  ts_recv_ns : Int
  offset : Int
  deriving DecidableEq, Repr

/-- The 16-byte index file header: magic `MMEVLIDX`, version 0, endian 1,
flags u16 = 0, reserved u32 = 0. -/
def indexHeader : List Nat :=
  [77, 77, 69, 86, 76, 73, 68, 88] ++ [0] ++ [1] ++ encU 2 0 ++ encU 4 0

/-- Embeds the entry loop of `_write_entries`: validates each entry
(non-negative fields, non-decreasing timestamp, strictly increasing offset
against the previous entry) and packs it as two little-endian `i64`. -/
def write_entries (prev : Option IndexEntry) :
    List IndexEntry → Except BTError (List Nat)
  | [] => .ok []
  | e :: t =>
    if e.ts_recv_ns < 0 then .error (.schema "negative index timestamp")
    else if e.offset < 0 then .error (.schema "negative index offset")
    else
      match prev with
      | some pe =>
        if e.ts_recv_ns < pe.ts_recv_ns then
          .error (.schema "index timestamps not monotone")
        else if e.offset ≤ pe.offset then
          .error (.schema "index offsets not increasing")
        else
          match write_entries (some e) t with
          | .error er => .error er
          | .ok bs => .ok (encI64 e.ts_recv_ns ++ encI64 e.offset ++ bs)
      | none =>
        match write_entries (some e) t with
        | .error er => .error er
        | .ok bs => .ok (encI64 e.ts_recv_ns ++ encI64 e.offset ++ bs)

/-- Embeds `write_index`: header then validated entries. -/
def write_index (entries : List IndexEntry) : Except BTError (List Nat) :=
  match write_entries none entries with
  | .error e => .error e
  | .ok bs => .ok (indexHeader ++ bs)

/-- Bytes of an entry list with no validation, as a forged index file body
would contain them. -/
def encode_entries_raw : List IndexEntry → List Nat
  | [] => []
  | e :: t => encI64 e.ts_recv_ns ++ encI64 e.offset ++ encode_entries_raw t

/-- Embeds the entry loop of `read_index`: 16-byte records, with the same
per-entry validation as the writer. -/
def read_entries (prev : Option IndexEntry) (bs : List Nat) :
    Except BTError (List IndexEntry) :=
  if h : bs = [] then .ok []
  else
    let ts := decI64 (bs.take 8)
    let off := decI64 ((bs.drop 8).take 8)
    if ts < 0 then .error (.schema "negative index timestamp")
    else if off < 0 then .error (.schema "negative index offset")
    else
      match prev with
      | some pe =>
        if ts < pe.ts_recv_ns then
          .error (.schema "index timestamps not monotone")
        else if off ≤ pe.offset then
          .error (.schema "index offsets not increasing")
        else
          match read_entries (some ⟨ts, off⟩) (bs.drop 16) with
          | .error er => .error er
          | .ok es => .ok (⟨ts, off⟩ :: es)
      | none =>
        match read_entries (some ⟨ts, off⟩) (bs.drop 16) with
        | .error er => .error er
        | .ok es => .ok (⟨ts, off⟩ :: es)
termination_by bs.length
decreasing_by
  all_goals
    simp only [List.length_drop]
    cases bs
    · exact absurd rfl h
    · simp
      omega

/-- Embeds `read_index`: header checks, 16-byte alignment of the payload,
then the entry loop. -/
def read_index (file : List Nat) : Except BTError (List IndexEntry) :=
  let header := file.take 16
  if header.length ≠ 16 then .error (.schema "invalid index header size")
  else if header.take 8 ≠ [77, 77, 69, 86, 76, 73, 68, 88] then
    .error (.schema "invalid index magic")
  else if header.getD 8 0 ≠ 0 then .error (.schema "unsupported index version")
  else if header.getD 9 0 ≠ 1 then .error (.schema "unsupported index endian")
  else if decU ((header.drop 12).take 4) ≠ 0 then
    .error (.schema "non-zero index reserved field")
  else
    let data := file.drop 16
    if data.length % 16 ≠ 0 then .error (.schema "index payload size mismatch")
    else read_entries none data

/-- Validity of an index entry stream relative to the previously written
entry, mirroring the running `prev_ts`/`prev_offset` checks. -/
def ValidFrom : Option IndexEntry → List IndexEntry → Prop
  | _, [] => True
  | prev, e :: t =>
    0 ≤ e.ts_recv_ns ∧ 0 ≤ e.offset ∧
    (match prev with
     | some pe => pe.ts_recv_ns ≤ e.ts_recv_ns ∧ pe.offset < e.offset
     | none => True) ∧
    ValidFrom (some e) t

/-- The index invariants as the spec states them: non-negative fields,
non-decreasing timestamps, strictly increasing offsets. -/
def IndexValid (es : List IndexEntry) : Prop :=
  (∀ e ∈ es, 0 ≤ e.ts_recv_ns ∧ 0 ≤ e.offset) ∧
  List.Chain' (fun a b => a.ts_recv_ns ≤ b.ts_recv_ns ∧ a.offset < b.offset) es

theorem validFrom_iff : ∀ (es : List IndexEntry) (prev : Option IndexEntry),
    ValidFrom prev es ↔
      ((∀ e ∈ es, 0 ≤ e.ts_recv_ns ∧ 0 ≤ e.offset) ∧
        match prev with
        | none => List.Chain'
            (fun a b => a.ts_recv_ns ≤ b.ts_recv_ns ∧ a.offset < b.offset) es
        | some pe => List.Chain'
            (fun a b => a.ts_recv_ns ≤ b.ts_recv_ns ∧ a.offset < b.offset)
            (pe :: es)) := by
  intro es
  induction es with
  | nil =>
    intro prev
    cases prev <;>
      simp [ValidFrom, List.chain'_nil, List.chain'_singleton]
  | cons e t ih =>
    intro prev
    have ihe := ih (some e)
    cases prev with
    | none =>
      simp only [ValidFrom, ihe]
      constructor
      · rintro ⟨h1, h2, -, h3, h4⟩
        refine ⟨?_, h4⟩
        intro x hx
        rcases List.mem_cons.mp hx with rfl | hx
        · exact ⟨h1, h2⟩
        · exact h3 x hx
      · rintro ⟨hall, hc⟩
        obtain ⟨h1, h2⟩ := hall e (List.mem_cons_self e t)
        exact ⟨h1, h2, trivial,
          fun x hx => hall x (List.mem_cons_of_mem e hx), hc⟩
    | some pe =>
      simp only [ValidFrom, ihe, List.chain'_cons]
      constructor
      · rintro ⟨h1, h2, hlink, h3, h4⟩
        refine ⟨?_, hlink, h4⟩
        intro x hx
        rcases List.mem_cons.mp hx with rfl | hx
        · exact ⟨h1, h2⟩
        · exact h3 x hx
      · rintro ⟨hall, hlink, h4⟩
        obtain ⟨h1, h2⟩ := hall e (List.mem_cons_self e t)
        exact ⟨h1, h2, hlink,
          fun x hx => hall x (List.mem_cons_of_mem e hx), h4⟩

theorem raw_cons_parse (e : IndexEntry) (t : List IndexEntry) :
    encode_entries_raw (e :: t)
      = encI64 e.ts_recv_ns ++ (encI64 e.offset ++ encode_entries_raw t) ∧
    (encI64 e.ts_recv_ns ++ (encI64 e.offset ++ encode_entries_raw t)).take 8
      = encI64 e.ts_recv_ns ∧
    ((encI64 e.ts_recv_ns ++ (encI64 e.offset ++ encode_entries_raw t)).drop 8).take 8
      = encI64 e.offset ∧
    (encI64 e.ts_recv_ns ++ (encI64 e.offset ++ encode_entries_raw t)).drop 16
      = encode_entries_raw t ∧
    encI64 e.ts_recv_ns ++ (encI64 e.offset ++ encode_entries_raw t) ≠ [] := by
  have hA : (encI64 e.ts_recv_ns).length = 8 := encI64_length _
  have hB : (encI64 e.offset).length = 8 := encI64_length _
  refine ⟨by simp [encode_entries_raw], List.take_left' hA, ?_, ?_, ?_⟩
  · rw [List.drop_left' hA, List.take_left' hB]
  · rw [show (16 : Nat) = 8 + 8 from rfl, ← List.drop_drop,
      List.drop_left' hA, List.drop_left' hB]
  · intro hcon
    have := congrArg List.length hcon
    simp [hA] at this

theorem index_rw_core : ∀ (es : List IndexEntry) (prev : Option IndexEntry),
    (∀ e ∈ es, -9223372036854775808 ≤ e.ts_recv_ns ∧
      e.ts_recv_ns < 9223372036854775808 ∧
      -9223372036854775808 ≤ e.offset ∧ e.offset < 9223372036854775808) →
    (ValidFrom prev es →
      write_entries prev es = .ok (encode_entries_raw es) ∧
      read_entries prev (encode_entries_raw es) = .ok es) ∧
    (¬ ValidFrom prev es →
      (∃ m, write_entries prev es = .error (.schema m)) ∧
      (∃ m, read_entries prev (encode_entries_raw es) = .error (.schema m))) := by
  intro es
  induction es with
  | nil =>
    intro prev _
    constructor
    · intro _
      exact ⟨rfl, by simp [read_entries, encode_entries_raw]⟩
    · intro hnv
      exact absurd trivial hnv
  | cons e t ih =>
    intro prev hrange
    have he := hrange e (List.mem_cons_self e t)
    have hrt := fun x hx => hrange x (List.mem_cons_of_mem e hx)
    obtain ⟨heq, htake, hofftake, hdrop16, hne⟩ := raw_cons_parse e t
    have hts : decI64 ((encI64 e.ts_recv_ns ++
        (encI64 e.offset ++ encode_entries_raw t)).take 8) = e.ts_recv_ns := by
      rw [htake, decI64_encI64 he.1 he.2.1]
    have hoff : decI64 (((encI64 e.ts_recv_ns ++
        (encI64 e.offset ++ encode_entries_raw t)).drop 8).take 8) = e.offset := by
      rw [hofftake, decI64_encI64 he.2.2.1 he.2.2.2]
    have hread1 : read_entries prev (encode_entries_raw (e :: t)) =
        (if e.ts_recv_ns < 0 then
          (.error (.schema "negative index timestamp") :
            Except BTError (List IndexEntry))
        else if e.offset < 0 then .error (.schema "negative index offset")
        else
          match prev with
          | some pe =>
            if e.ts_recv_ns < pe.ts_recv_ns then
              .error (.schema "index timestamps not monotone")
            else if e.offset ≤ pe.offset then
              .error (.schema "index offsets not increasing")
            else
              match read_entries (some ⟨e.ts_recv_ns, e.offset⟩)
                  (encode_entries_raw t) with
              | .error er => .error er
              | .ok es => .ok (⟨e.ts_recv_ns, e.offset⟩ :: es)
          | none =>
            match read_entries (some ⟨e.ts_recv_ns, e.offset⟩)
                (encode_entries_raw t) with
            | .error er => .error er
            | .ok es => .ok (⟨e.ts_recv_ns, e.offset⟩ :: es)) := by
      rw [heq, read_entries, dif_neg hne]
      simp only [hts, hoff, hdrop16]
    constructor
    · intro hv
      obtain ⟨h1, h2, hlink, hvt⟩ := hv
      obtain ⟨hw, hr⟩ := (ih (some e) hrt).1 hvt
      constructor
      · cases prev with
        | none =>
          simp only [write_entries, if_neg (by omega : ¬ e.ts_recv_ns < 0),
            if_neg (by omega : ¬ e.offset < 0), hw, encode_entries_raw]
        | some pe =>
          simp only [write_entries, if_neg (by omega : ¬ e.ts_recv_ns < 0),
            if_neg (by omega : ¬ e.offset < 0),
            if_neg (by omega : ¬ e.ts_recv_ns < pe.ts_recv_ns),
            if_neg (by omega : ¬ e.offset ≤ pe.offset), hw, encode_entries_raw]
      · cases prev with
        | none =>
          rw [hread1]
          simp only [if_neg (show ¬ e.ts_recv_ns < 0 by omega),
            if_neg (show ¬ e.offset < 0 by omega), hr]
        | some pe =>
          rw [hread1]
          simp only [if_neg (show ¬ e.ts_recv_ns < 0 by omega),
            if_neg (show ¬ e.offset < 0 by omega),
            if_neg (show ¬ e.ts_recv_ns < pe.ts_recv_ns by omega),
            if_neg (show ¬ e.offset ≤ pe.offset by omega), hr]
    · intro hnv
      by_cases h1 : e.ts_recv_ns < 0
      · exact ⟨⟨"negative index timestamp",
            by simp only [write_entries, if_pos h1]⟩,
          ⟨"negative index timestamp", by rw [hread1, if_pos h1]⟩⟩
      by_cases h2 : e.offset < 0
      · exact ⟨⟨"negative index offset",
            by simp only [write_entries, if_neg h1, if_pos h2]⟩,
          ⟨"negative index offset", by rw [hread1, if_neg h1, if_pos h2]⟩⟩
      cases prev with
      | none =>
        have hnvt : ¬ ValidFrom (some e) t := by
          intro hvt
          exact hnv ⟨by omega, by omega, trivial, hvt⟩
        obtain ⟨⟨mw, hw⟩, ⟨mr, hr⟩⟩ := (ih (some e) hrt).2 hnvt
        refine ⟨⟨mw, ?_⟩, ⟨mr, ?_⟩⟩
        · simp only [write_entries, if_neg h1, if_neg h2, hw]
        · rw [hread1]
          simp only [if_neg h1, if_neg h2, hr]
      | some pe =>
        by_cases h3 : e.ts_recv_ns < pe.ts_recv_ns
        · exact ⟨⟨"index timestamps not monotone",
              by simp only [write_entries, if_neg h1, if_neg h2, if_pos h3]⟩,
            ⟨"index timestamps not monotone",
              by rw [hread1]; simp only [if_neg h1, if_neg h2, if_pos h3]⟩⟩
        by_cases h4 : e.offset ≤ pe.offset
        · exact ⟨⟨"index offsets not increasing",
              by simp only [write_entries, if_neg h1, if_neg h2,
                if_neg h3, if_pos h4]⟩,
            ⟨"index offsets not increasing",
              by rw [hread1]; simp only [if_neg h1, if_neg h2,
                if_neg h3, if_pos h4]⟩⟩
        have hnvt : ¬ ValidFrom (some e) t := by
          intro hvt
          exact hnv ⟨by omega, by omega, ⟨by omega, by omega⟩, hvt⟩
        obtain ⟨⟨mw, hw⟩, ⟨mr, hr⟩⟩ := (ih (some e) hrt).2 hnvt
        refine ⟨⟨mw, ?_⟩, ⟨mr, ?_⟩⟩
        · simp only [write_entries, if_neg h1, if_neg h2, if_neg h3, if_neg h4, hw]
        · rw [hread1]
          simp only [if_neg h1, if_neg h2, if_neg h3, if_neg h4, hr]

theorem encode_entries_raw_length :
    ∀ es : List IndexEntry, (encode_entries_raw es).length = 16 * es.length := by
  intro es
  induction es with
  | nil => rfl
  | cons e t ih =>
    simp only [encode_entries_raw, List.length_append, encI64_length,
      List.length_cons, ih]
    ring

/-- C6 counterexample: the index module raises `SchemaError`, never
`OrderingError`, on a monotonicity violation, and it also rejects an entry
sequence with a negative timestamp even though that sequence has
non-decreasing timestamps and strictly increasing non-negative offsets, so
the claim's positive half fails on it as well. -/
theorem c6_counterexample :
    write_index [⟨2, 0⟩, ⟨1, 8⟩]
      = .error (.schema "index timestamps not monotone") ∧
    (∀ m, write_index [⟨2, 0⟩, ⟨1, 8⟩] ≠ .error (.ordering m)) ∧
    write_index [⟨-1, 0⟩] = .error (.schema "negative index timestamp") ∧
    List.Chain' (fun a b => a.ts_recv_ns ≤ b.ts_recv_ns ∧ a.offset < b.offset)
      [(⟨-1, 0⟩ : IndexEntry)] ∧
    (0 : Int) ≤ (⟨-1, 0⟩ : IndexEntry).offset := by
  have h : write_index [⟨2, 0⟩, ⟨1, 8⟩]
      = .error (.schema "index timestamps not monotone") := rfl
  refine ⟨h, ?_, rfl, List.chain'_singleton _, by decide⟩
  intro m hc
  rw [h] at hc
  simp at hc

/-- C6 (amended): writing or reading a time index fails, with a
`SchemaError`, exactly when the entry sequence violates the index
invariants — some entry has a negative timestamp or offset, or an adjacent
pair has a decreasing timestamp or a non-increasing offset; for every
sequence of in-int64-range entries satisfying all of these, `write_index`
succeeds and `read_index` of the written bytes returns exactly the written
entries. -/
theorem c6_index_write_read (es : List IndexEntry)
    (hrange : ∀ e ∈ es, -9223372036854775808 ≤ e.ts_recv_ns ∧
      e.ts_recv_ns < 9223372036854775808 ∧
      -9223372036854775808 ≤ e.offset ∧ e.offset < 9223372036854775808) :
    (IndexValid es →
      write_index es = .ok (indexHeader ++ encode_entries_raw es) ∧
      read_index (indexHeader ++ encode_entries_raw es) = .ok es) ∧
    (¬ IndexValid es →
      (∃ m, write_index es = .error (.schema m)) ∧
      (∃ m, read_index (indexHeader ++ encode_entries_raw es)
        = .error (.schema m))) := by
  have hvv : ValidFrom none es ↔ IndexValid es := validFrom_iff es none
  have hhl : indexHeader.length = 16 := rfl
  have hread : read_index (indexHeader ++ encode_entries_raw es)
      = read_entries none (encode_entries_raw es) := by
    simp only [read_index, List.take_left' hhl, List.drop_left' hhl]
    rw [if_neg (by decide), if_neg (by decide), if_neg (by decide),
      if_neg (by decide), if_neg (by decide),
      if_neg (by rw [encode_entries_raw_length]; omega)]
  constructor
  · intro hv
    obtain ⟨hw, hr⟩ := (index_rw_core es none hrange).1 (hvv.mpr hv)
    constructor
    · simp only [write_index, hw]
    · rw [hread]
      exact hr
  · intro hnv
    obtain ⟨⟨mw, hw⟩, ⟨mr, hr⟩⟩ :=
      (index_rw_core es none hrange).2 (fun hvf => hnv (hvv.mp hvf))
    refine ⟨⟨mw, ?_⟩, ⟨mr, ?_⟩⟩
    · simp only [write_index, hw]
    · rw [hread]
      exact hr

theorem c6_index_write_read_witness :
    write_index [⟨1, 16⟩, ⟨2, 32⟩]
      = .ok (indexHeader ++ encode_entries_raw [⟨1, 16⟩, ⟨2, 32⟩]) ∧
    read_index (indexHeader ++ encode_entries_raw [⟨1, 16⟩, ⟨2, 32⟩])
      = .ok [⟨1, 16⟩, ⟨2, 32⟩] :=
  (c6_index_write_read [⟨1, 16⟩, ⟨2, 32⟩] (by decide)).1
    ⟨by decide, List.chain'_cons.mpr ⟨⟨by norm_num, by norm_num⟩,
      List.chain'_singleton _⟩⟩

/-! ## Binary search (`bisect.bisect_left`) -/

/-- The loop of CPython's `bisect_left`: `while lo < hi: mid = (lo+hi)//2;
if a[mid] < x: lo = mid+1 else: hi = mid`.  The structural `fuel` argument
bounds the iteration count; every call site passes at least the initial
`hi - lo`, which the loop never needs to exceed since `hi - lo` strictly
decreases per iteration. -/
def bisectLoop (a : List Int) (x : Int) : Nat → Nat → Nat → Nat
  | 0, lo, _ => lo
  | fuel + 1, lo, hi =>
    if lo < hi then
      let mid := (lo + hi) / 2
      if a.getD mid 0 < x then bisectLoop a x fuel (mid + 1) hi
      else bisectLoop a x fuel lo mid
    else lo

/-- Embeds `bisect.bisect_left(a, x)`. -/
def bisect_left (a : List Int) (x : Int) : Nat :=
  bisectLoop a x a.length 0 a.length

theorem bisectLoop_spec (a : List Int) (x : Int)
    (hmono : ∀ i j, i ≤ j → j < a.length → a.getD i 0 ≤ a.getD j 0) :
    ∀ (fuel lo hi : Nat), hi - lo ≤ fuel → lo ≤ hi → hi ≤ a.length →
    (∀ j, j < lo → a.getD j 0 < x) →
    (∀ j, hi ≤ j → j < a.length → x ≤ a.getD j 0) →
    (∀ j, j < bisectLoop a x fuel lo hi → a.getD j 0 < x) ∧
    (∀ j, bisectLoop a x fuel lo hi ≤ j → j < a.length → x ≤ a.getD j 0) ∧
    lo ≤ bisectLoop a x fuel lo hi ∧ bisectLoop a x fuel lo hi ≤ hi := by
  intro fuel
  induction fuel with
  | zero =>
    intro lo hi hf hlh hha hlow hhigh
    have : lo = hi := by omega
    rw [bisectLoop]
    subst this
    exact ⟨hlow, fun j hj => hhigh j hj, le_refl _, le_refl _⟩
  | succ fuel ih =>
    intro lo hi hf hlh hha hlow hhigh
    by_cases hcmp : lo < hi
    · rw [bisectLoop, if_pos hcmp]
      simp only []
      by_cases hmid : a.getD ((lo + hi) / 2) 0 < x
      · rw [if_pos hmid]
        have hlow2 : ∀ j, j < (lo + hi) / 2 + 1 → a.getD j 0 < x := by
          intro j hj
          exact lt_of_le_of_lt
            (hmono j ((lo + hi) / 2) (by omega) (by omega)) hmid
        obtain ⟨g1, g2, g3, g4⟩ :=
          ih ((lo + hi) / 2 + 1) hi (by omega) (by omega) hha hlow2 hhigh
        exact ⟨g1, g2, by omega, g4⟩
      · rw [if_neg hmid]
        have hhigh2 : ∀ j, (lo + hi) / 2 ≤ j → j < a.length → x ≤ a.getD j 0 := by
          intro j hj hja
          exact le_trans (not_lt.mp hmid) (hmono ((lo + hi) / 2) j hj hja)
        obtain ⟨g1, g2, g3, g4⟩ :=
          ih lo ((lo + hi) / 2) (by omega) (by omega) (by omega) hlow hhigh2
        exact ⟨g1, g2, g3, by omega⟩
    · rw [bisectLoop, if_neg hcmp]
      have : lo = hi := by omega
      subst this
      exact ⟨hlow, fun j hj => hhigh j hj, le_refl _, le_refl _⟩

/-- On a list with non-decreasing entries, `bisect_left a x` is the index of
the first element `≥ x` (or the length when there is none). -/
theorem bisect_left_spec (a : List Int) (x : Int)
    (hmono : ∀ i j, i ≤ j → j < a.length → a.getD i 0 ≤ a.getD j 0) :
    (∀ j, j < bisect_left a x → a.getD j 0 < x) ∧
    (∀ j, bisect_left a x ≤ j → j < a.length → x ≤ a.getD j 0) ∧
    bisect_left a x ≤ a.length := by
  obtain ⟨h1, h2, -, h4⟩ := bisectLoop_spec a x hmono a.length 0 a.length
    (by omega) (by omega) (le_refl _) (by omega) (by omega)
  exact ⟨h1, h2, h4⟩

/-! ## Reference order book: `mm_bt/book/book_py.py` -/

/-- Embeds `_insert_price`: insert `price` into the sorted array at its
`bisect_left` position unless already present. -/
def _insert_price (prices : List Int) (price : Int) : List Int :=
  let idx := bisect_left prices price
  if idx < prices.length ∧ prices.getD idx 0 = price then prices
  else prices.insertIdx idx price

/-- Embeds `_remove_price`: remove `price` from the sorted array if the
`bisect_left` probe finds it. -/
def _remove_price (prices : List Int) (price : Int) : List Int :=
  let idx := bisect_left prices price
  if idx < prices.length ∧ prices.getD idx 0 = price then prices.eraseIdx idx
  else prices

theorem sorted_getD_mono (a : List Int) (hs : List.Sorted (· < ·) a) :
    ∀ i j, i ≤ j → j < a.length → a.getD i 0 ≤ a.getD j 0 := by
  intro i j hij hj
  rcases eq_or_lt_of_le hij with rfl | hlt
  · exact le_refl _
  · rw [List.getD_eq_getElem _ 0 (by omega), List.getD_eq_getElem _ 0 hj]
    exact le_of_lt (hs.rel_get_of_lt (a := ⟨i, by omega⟩) (b := ⟨j, hj⟩) hlt)

/-- On a strictly sorted list, membership of `p` is equivalent to the
`bisect_left` probe finding `p` in place. -/
theorem sorted_mem_iff_bisect (a : List Int) (p : Int)
    (hs : List.Sorted (· < ·) a) :
    p ∈ a ↔ (bisect_left a p < a.length ∧ a.getD (bisect_left a p) 0 = p) := by
  obtain ⟨hlt, hge, hlen⟩ := bisect_left_spec a p (sorted_getD_mono a hs)
  constructor
  · intro hmem
    obtain ⟨i, hi, hip⟩ := List.getElem_of_mem hmem
    have hiD : a.getD i 0 = p := by rw [List.getD_eq_getElem _ 0 hi]; exact hip
    have h1 : ¬ i < bisect_left a p := by
      intro hc
      exact absurd hiD (by have := hlt i hc; omega)
    have h2 : bisect_left a p ≤ i := by omega
    have hle := sorted_getD_mono a hs (bisect_left a p) i h2 hi
    have hge2 := hge (bisect_left a p) (le_refl _) (by omega)
    constructor
    · omega
    · omega
  · intro ⟨h1, h2⟩
    have : a.getD (bisect_left a p) 0 ∈ a := by
      rw [List.getD_eq_getElem _ 0 h1]
      exact List.getElem_mem h1
    rwa [h2] at this

theorem insertIdx_eq_take_drop (p : Int) :
    ∀ (idx : Nat) (a : List Int), idx ≤ a.length →
      a.insertIdx idx p = a.take idx ++ p :: a.drop idx := by
  intro idx
  induction idx with
  | zero => intro a _; simp
  | succ n ih =>
    intro a ha
    cases a with
    | nil => simp at ha
    | cons h t =>
      simp only [List.insertIdx_succ_cons, List.take_succ_cons, List.drop_succ_cons,
        List.cons_append, List.cons.injEq, true_and]
      exact ih t (by simpa using ha)

/-- Specification of `_insert_price` on a strictly sorted price array:
sortedness is preserved and the element set gains `p`. -/
theorem insert_price_spec (a : List Int) (p : Int)
    (hs : List.Sorted (· < ·) a) :
    List.Sorted (· < ·) (_insert_price a p) ∧
    (∀ q, q ∈ _insert_price a p ↔ q = p ∨ q ∈ a) := by
  obtain ⟨hlt, hge, hlen⟩ := bisect_left_spec a p (sorted_getD_mono a hs)
  unfold _insert_price
  by_cases hfound : bisect_left a p < a.length ∧ a.getD (bisect_left a p) 0 = p
  · rw [if_pos hfound]
    have hmem := (sorted_mem_iff_bisect a p hs).mpr hfound
    exact ⟨hs, fun q => ⟨fun h => Or.inr h,
      fun h => h.elim (fun h => h ▸ hmem) id⟩⟩
  · rw [if_neg hfound]
    have hnot : p ∉ a := fun hmem =>
      hfound ((sorted_mem_iff_bisect a p hs).mp hmem)
    rw [insertIdx_eq_take_drop p (bisect_left a p) a hlen]
    constructor
    · rw [List.Sorted, List.pairwise_append]
      refine ⟨hs.sublist (List.take_sublist _ _), ?_, ?_⟩
      · rw [List.pairwise_cons]
        refine ⟨?_, hs.sublist (List.drop_sublist _ _)⟩
        intro y hy
        obtain ⟨j, hj, hjy⟩ := List.getElem_of_mem hy
        rw [List.getElem_drop] at hjy
        have hple := hge (bisect_left a p + j) (by omega) (by
          have := List.length_drop (bisect_left a p) a
          omega)
        rw [List.getD_eq_getElem _ 0 (by
          have := List.length_drop (bisect_left a p) a
          omega)] at hple
        rw [hjy] at hple
        rcases lt_or_eq_of_le hple with h | h
        · exact h
        · exact absurd (h ▸ List.mem_of_mem_drop hy) hnot
      · intro x hx y hy
        obtain ⟨i, hi, hix⟩ := List.getElem_of_mem hx
        rw [List.getElem_take] at hix
        rw [List.length_take] at hi
        have hxlt : x < p := by
          have := hlt i (by omega)
          rw [List.getD_eq_getElem _ 0 (by omega)] at this
          omega
        rcases List.mem_cons.mp hy with rfl | hy
        · exact hxlt
        · obtain ⟨j, hj, hjy⟩ := List.getElem_of_mem hy
          rw [List.getElem_drop] at hjy
          have hple := hge (bisect_left a p + j) (by omega) (by
            have := List.length_drop (bisect_left a p) a
            omega)
          rw [List.getD_eq_getElem _ 0 (by
            have := List.length_drop (bisect_left a p) a
            omega)] at hple
          rw [hjy] at hple
          omega
    · intro q
      constructor
      · intro hq
        rcases List.mem_append.mp hq with h | h
        · exact Or.inr (List.mem_of_mem_take h)
        · rcases List.mem_cons.mp h with rfl | h
          · exact Or.inl rfl
          · exact Or.inr (List.mem_of_mem_drop h)
      · intro hq
        rcases hq with rfl | hq
        · exact List.mem_append.mpr (Or.inr (List.mem_cons_self _ _))
        · rcases List.getElem_of_mem hq with ⟨i, hi, hiq⟩
          by_cases hcmp : i < bisect_left a p
          · refine List.mem_append.mpr (Or.inl ?_)
            rw [List.mem_iff_getElem]
            refine ⟨i, by simp [List.length_take]; omega, ?_⟩
            rw [List.getElem_take]
            exact hiq
          · refine List.mem_append.mpr (Or.inr (List.mem_cons_of_mem _ ?_))
            rw [List.mem_iff_getElem]
            refine ⟨i - bisect_left a p, by simp [List.length_drop]; omega, ?_⟩
            rw [List.getElem_drop]
            have hidx : bisect_left a p + (i - bisect_left a p) = i := by omega
            simp only [hidx]
            exact hiq

/-- Specification of `_remove_price` on a strictly sorted price array:
sortedness is preserved and the element set loses `p`. -/
theorem remove_price_spec (a : List Int) (p : Int)
    (hs : List.Sorted (· < ·) a) :
    List.Sorted (· < ·) (_remove_price a p) ∧
    (∀ q, q ∈ _remove_price a p ↔ q ∈ a ∧ q ≠ p) := by
  obtain ⟨hlt, hge, hlen⟩ := bisect_left_spec a p (sorted_getD_mono a hs)
  unfold _remove_price
  by_cases hfound : bisect_left a p < a.length ∧ a.getD (bisect_left a p) 0 = p
  · rw [if_pos hfound]
    have hfound1 : bisect_left a p < a.length := hfound.1
    have hpidx : a[bisect_left a p] = p := by
      rw [← List.getD_eq_getElem _ 0 hfound1]
      exact hfound.2
    refine ⟨hs.sublist (List.eraseIdx_sublist _ _), ?_⟩
    intro q
    rw [List.eraseIdx_eq_take_drop_succ]
    constructor
    · intro hq
      rcases List.mem_append.mp hq with h | h
      · obtain ⟨i, hi, hiq⟩ := List.getElem_of_mem h
        rw [List.getElem_take] at hiq
        rw [List.length_take] at hi
        have hqlt : q < p := by
          have := hlt i (by omega)
          rw [List.getD_eq_getElem _ 0 (by omega)] at this
          omega
        exact ⟨hiq ▸ List.getElem_mem _, by omega⟩
      · obtain ⟨j, hj, hjq⟩ := List.getElem_of_mem h
        rw [List.getElem_drop] at hjq
        rw [List.length_drop] at hj
        have hgt : p < q := by
          have := hs.rel_get_of_lt
            (a := ⟨bisect_left a p, hfound.1⟩)
            (b := ⟨bisect_left a p + 1 + j, by omega⟩)
            (by simp [Fin.lt_def]; omega)
          simp only [List.get_eq_getElem] at this
          rw [hpidx] at this
          rw [hjq] at this
          exact this
        exact ⟨hjq ▸ List.getElem_mem _, by omega⟩
    · intro ⟨hq, hqp⟩
      obtain ⟨i, hi, hiq⟩ := List.getElem_of_mem hq
      by_cases hcmp : i < bisect_left a p
      · refine List.mem_append.mpr (Or.inl ?_)
        rw [List.mem_iff_getElem]
        refine ⟨i, by simp [List.length_take]; omega, ?_⟩
        rw [List.getElem_take]
        exact hiq
      · have hne : i ≠ bisect_left a p := by
          intro heq
          apply hqp
          rw [← hiq, ← hpidx]
          congr 1
        refine List.mem_append.mpr (Or.inr ?_)
        rw [List.mem_iff_getElem]
        refine ⟨i - bisect_left a p - 1, by simp [List.length_drop]; omega, ?_⟩
        rw [List.getElem_drop]
        have hidx : bisect_left a p + 1 + (i - bisect_left a p - 1) = i := by
          omega
        simp only [hidx]
        exact hiq
  · rw [if_neg hfound]
    have hnot : p ∉ a := fun hmem =>
      hfound ((sorted_mem_iff_bisect a p hs).mp hmem)
    exact ⟨hs, fun q =>
      ⟨fun h => ⟨h, fun heq => hnot (heq ▸ h)⟩, fun h => h.1⟩⟩

/-- Functional model of Python `dict.__setitem__` on an association list:
replace the first binding of `k` or append a fresh one. -/
def setKey : List (Int × Int) → Int → Int → List (Int × Int)
  | [], k, v => [(k, v)]
  | (a, b) :: t, k, v =>
    if a = k then (k, v) :: t else (a, b) :: setKey t k v

/-- Functional model of Python `dict.__delitem__`: drop the first binding. -/
def delKey : List (Int × Int) → Int → List (Int × Int)
  | [], _ => []
  | (a, b) :: t, k => if a = k then t else (a, b) :: delKey t k

/-! ## Event log data structures: `mm_bt/evlog/types.py` -/

/-- `L2Update` record. -/
structure L2Update where
  side : Side
  price_ticks : Int
  amount_lots : Int
  is_snapshot : Bool
  deriving DecidableEq, Repr

/-- `L2Batch` record. -/
structure L2Batch where
  ts_recv_ns : Int
  ts_exch_ns : Int
  resets_book : Bool
  updates : List L2Update
  deriving DecidableEq, Repr

/-- State of `BookPy`: per-side price→size maps plus sorted price arrays,
with the `reject_crossed` construction flag. -/
structure BookPy where
  reject_crossed : Bool
  bids : List (Int × Int)
  asks : List (Int × Int)
  bid_prices : List Int
  ask_prices : List Int
  deriving DecidableEq, Repr

/-- Embeds `BookPy.reset`. -/
def bookReset (b : BookPy) : BookPy :=
  { b with bids := [], asks := [], bid_prices := [], ask_prices := [] }

/-- Embeds `BookPy.__init__`. -/
def book_init (reject_crossed : Bool) : BookPy :=
  bookReset ⟨reject_crossed, [], [], [], []⟩

/-- Embeds the static method `_apply_level`: delete on `amount == 0`,
insert-or-replace otherwise, maps and sorted arrays in lockstep. -/
def _apply_level (levels : List (Int × Int)) (prices : List Int)
    (price amount : Int) : List (Int × Int) × List Int :=
  if amount = 0 then
    if (levels.lookup price).isSome then
      (delKey levels price, _remove_price prices price)
    else (levels, prices)
  else (setKey levels price amount, _insert_price prices price)

/-- Embeds `BookPy._apply_update`: validation then side dispatch. -/
def _apply_update (b : BookPy) (u : L2Update) : Except BTError BookPy :=
  if u.price_ticks ≤ 0 then .error (.schema "non-positive price")
  else if u.amount_lots < 0 then .error (.schema "negative amount")
  else match u.side with
    | .bid =>
      let r := _apply_level b.bids b.bid_prices u.price_ticks u.amount_lots
      .ok { b with bids := r.1, bid_prices := r.2 }
    | .ask =>
      let r := _apply_level b.asks b.ask_prices u.price_ticks u.amount_lots
      .ok { b with asks := r.1, ask_prices := r.2 }

/-- The update loop of `apply_l2_batch`. -/
def applyUpdates : BookPy → List L2Update → Except BTError BookPy
  | b, [] => .ok b
  | b, u :: t =>
    match _apply_update b u with
    | .error e => .error e
    | .ok b2 => applyUpdates b2 t

/-- Embeds `BookPy._check_crossed`: with both sides non-empty, fail when
`bid_prices[-1] >= ask_prices[0]`. -/
def _check_crossed (b : BookPy) : Except BTError Unit :=
  if b.bid_prices = [] ∨ b.ask_prices = [] then .ok ()
  else if b.ask_prices.getD 0 0
      ≤ b.bid_prices.getD (b.bid_prices.length - 1) 0 then
    .error (.schema "crossed book")
  else .ok ()

/-- Embeds `BookPy.apply_l2_batch`: optional reset, update loop, crossed
check when `reject_crossed` is set. -/
def apply_l2_batch (b : BookPy) (batch : L2Batch) : Except BTError BookPy :=
  let b0 := if batch.resets_book then bookReset b else b
  match applyUpdates b0 batch.updates with
  | .error e => .error e
  | .ok b1 =>
    if b1.reject_crossed then
      match _check_crossed b1 with
      | .error e => .error e
      | .ok _ => .ok b1
    else .ok b1

/-- Embeds `BookPy.best_bid_ask`: `(bid_px, bid_qty, ask_px, ask_qty)`,
`none` for an empty side; `bid_prices[-1]` and `ask_prices[0]` are the
best prices, sizes looked up in the side map. -/
def best_bid_ask (b : BookPy) :
    Option Int × Option Int × Option Int × Option Int :=
  let bid :=
    if b.bid_prices = [] then (none, none)
    else
      let px := b.bid_prices.getD (b.bid_prices.length - 1) 0
      (some px, some ((b.bids.lookup px).getD 0))
  let ask :=
    if b.ask_prices = [] then (none, none)
    else
      let px := b.ask_prices.getD 0 0
      (some px, some ((b.asks.lookup px).getD 0))
  (bid.1, bid.2, ask.1, ask.2)

/-- Embeds `BookPy.levels`: bid levels in descending price order, ask levels
ascending, truncated to `depth`, sizes looked up in the side map. -/
def levels (b : BookPy) (side : Side) (depth : Int) : List Int × List Int :=
  if depth ≤ 0 then ([], [])
  else
    let ordered := match side with
      | .bid => b.bid_prices.reverse
      | .ask => b.ask_prices
    let lvls := match side with
      | .bid => b.bids
      | .ask => b.asks
    let taken := ordered.take depth.toNat
    (taken, taken.map (fun p => (lvls.lookup p).getD 0))

theorem lookup_cons_eq (a b k : Int) (t : List (Int × Int)) (h : k = a) :
    List.lookup k ((a, b) :: t) = some b := by
  have hb : (k == a) = true := by simpa using h
  simp [List.lookup, hb]

theorem lookup_cons_ne (a b k : Int) (t : List (Int × Int)) (h : k ≠ a) :
    List.lookup k ((a, b) :: t) = List.lookup k t := by
  have hb : (k == a) = false := by simpa using h
  simp [List.lookup, hb]

theorem setKey_cons_eq (a b k v : Int) (t : List (Int × Int)) (h : a = k) :
    setKey ((a, b) :: t) k v = (k, v) :: t := by
  simp [setKey, h]

theorem setKey_cons_ne (a b k v : Int) (t : List (Int × Int)) (h : ¬ a = k) :
    setKey ((a, b) :: t) k v = (a, b) :: setKey t k v := by
  simp [setKey, h]

theorem delKey_cons_eq (a b k : Int) (t : List (Int × Int)) (h : a = k) :
    delKey ((a, b) :: t) k = t := by
  simp [delKey, h]

theorem delKey_cons_ne (a b k : Int) (t : List (Int × Int)) (h : ¬ a = k) :
    delKey ((a, b) :: t) k = (a, b) :: delKey t k := by
  simp [delKey, h]

theorem lookup_setKey (l : List (Int × Int)) (k v k' : Int) :
    (setKey l k v).lookup k' = if k' = k then some v else l.lookup k' := by
  induction l with
  | nil =>
    by_cases h : k' = k
    · simp only [setKey]
      rw [lookup_cons_eq _ _ _ _ h, if_pos h]
    · simp only [setKey]
      rw [lookup_cons_ne _ _ _ _ h, if_neg h]
  | cons p t ih =>
    obtain ⟨a, b⟩ := p
    by_cases hak : a = k
    · rw [setKey_cons_eq _ _ _ _ _ hak]
      subst hak
      by_cases h : k' = a
      · rw [lookup_cons_eq _ _ _ _ h, if_pos h]
      · rw [lookup_cons_ne _ _ _ _ h, if_neg h, lookup_cons_ne _ _ _ _ h]
    · rw [setKey_cons_ne _ _ _ _ _ hak]
      by_cases h2 : k' = a
      · subst h2
        rw [lookup_cons_eq _ _ _ _ rfl, if_neg (by omega : ¬ k' = k),
          lookup_cons_eq _ _ _ _ rfl]
      · rw [lookup_cons_ne _ _ _ _ h2, ih]
        by_cases h3 : k' = k
        · rw [if_pos h3, if_pos h3]
        · rw [if_neg h3, if_neg h3, lookup_cons_ne _ _ _ _ h2]

theorem lookup_none_of_not_mem_keys (l : List (Int × Int)) (k : Int)
    (h : k ∉ l.map Prod.fst) : l.lookup k = none := by
  induction l with
  | nil => rfl
  | cons p t ih =>
    obtain ⟨a, b⟩ := p
    simp only [List.map_cons, List.mem_cons] at h
    push_neg at h
    rw [lookup_cons_ne _ _ _ _ (by omega : ¬ k = a)]
    exact ih h.2

theorem lookup_isSome_iff_mem_keys (l : List (Int × Int)) (k : Int) :
    (l.lookup k).isSome = true ↔ k ∈ l.map Prod.fst := by
  induction l with
  | nil => simp [List.lookup]
  | cons p t ih =>
    obtain ⟨a, b⟩ := p
    by_cases h : k = a
    · rw [lookup_cons_eq _ _ _ _ h]
      simp [h]
    · rw [lookup_cons_ne _ _ _ _ h]
      simp only [List.map_cons, List.mem_cons, ih]
      constructor
      · exact Or.inr
      · rintro (h2 | h2)
        · exact absurd h2 h
        · exact h2

theorem lookup_delKey (l : List (Int × Int)) (k k' : Int)
    (hnd : (l.map Prod.fst).Nodup) :
    (delKey l k).lookup k' = if k' = k then none else l.lookup k' := by
  induction l with
  | nil =>
    by_cases h : k' = k <;> simp [delKey, List.lookup, h]
  | cons p t ih =>
    obtain ⟨a, b⟩ := p
    simp only [List.map_cons, List.nodup_cons] at hnd
    by_cases hak : a = k
    · rw [delKey_cons_eq _ _ _ _ hak]
      subst hak
      by_cases h : k' = a
      · subst h
        rw [if_pos rfl]
        exact lookup_none_of_not_mem_keys t k' hnd.1
      · rw [if_neg h, lookup_cons_ne _ _ _ _ h]
    · rw [delKey_cons_ne _ _ _ _ hak]
      by_cases h2 : k' = a
      · subst h2
        rw [lookup_cons_eq _ _ _ _ rfl, if_neg (by omega : ¬ k' = k),
          lookup_cons_eq _ _ _ _ rfl]
      · rw [lookup_cons_ne _ _ _ _ h2, ih hnd.2]
        by_cases h3 : k' = k
        · rw [if_pos h3, if_pos h3]
        · rw [if_neg h3, if_neg h3, lookup_cons_ne _ _ _ _ h2]

theorem mem_keys_setKey (l : List (Int × Int)) (k v q : Int) :
    q ∈ (setKey l k v).map Prod.fst ↔ q = k ∨ q ∈ l.map Prod.fst := by
  induction l with
  | nil => simp [setKey]
  | cons p t ih =>
    obtain ⟨a, b⟩ := p
    by_cases hak : a = k
    · rw [setKey_cons_eq _ _ _ _ _ hak]
      subst hak
      simp only [List.map_cons, List.mem_cons]
      tauto
    · rw [setKey_cons_ne _ _ _ _ _ hak]
      simp only [List.map_cons, List.mem_cons, ih]
      tauto

theorem nodup_keys_setKey (l : List (Int × Int)) (k v : Int)
    (hnd : (l.map Prod.fst).Nodup) :
    ((setKey l k v).map Prod.fst).Nodup := by
  induction l with
  | nil => simp [setKey]
  | cons p t ih =>
    obtain ⟨a, b⟩ := p
    simp only [List.map_cons, List.nodup_cons] at hnd
    by_cases hak : a = k
    · rw [setKey_cons_eq _ _ _ _ _ hak]
      subst hak
      simp only [List.map_cons, List.nodup_cons]
      exact hnd
    · rw [setKey_cons_ne _ _ _ _ _ hak]
      simp only [List.map_cons, List.nodup_cons]
      refine ⟨?_, ih hnd.2⟩
      rw [mem_keys_setKey]
      push_neg
      exact ⟨hak, hnd.1⟩

theorem keys_delKey_sublist (l : List (Int × Int)) (k : Int) :
    List.Sublist ((delKey l k).map Prod.fst) (l.map Prod.fst) := by
  induction l with
  | nil => simp [delKey]
  | cons p t ih =>
    obtain ⟨a, b⟩ := p
    by_cases hak : a = k
    · rw [delKey_cons_eq _ _ _ _ hak]
      simp only [List.map_cons]
      exact (List.sublist_cons_self _ _)
    · rw [delKey_cons_ne _ _ _ _ hak]
      simp only [List.map_cons]
      exact ih.cons₂ _

theorem nodup_keys_delKey (l : List (Int × Int)) (k : Int)
    (hnd : (l.map Prod.fst).Nodup) :
    ((delKey l k).map Prod.fst).Nodup :=
  hnd.sublist (keys_delKey_sublist l k)

/-- Invariant of one book side: strictly sorted price array whose elements
are exactly the map's keys, all stored sizes positive, no duplicate keys. -/
def SideInv (lvls : List (Int × Int)) (prices : List Int) : Prop :=
  List.Sorted (· < ·) prices ∧
  (∀ p, p ∈ prices ↔ (lvls.lookup p).isSome = true) ∧
  (∀ p v, lvls.lookup p = some v → 0 < v) ∧
  (lvls.map Prod.fst).Nodup

theorem apply_level_spec (lvls : List (Int × Int)) (prices : List Int)
    (price amount : Int) (hinv : SideInv lvls prices) (hamt : 0 ≤ amount) :
    SideInv (_apply_level lvls prices price amount).1
      (_apply_level lvls prices price amount).2 ∧
    ∀ q, (_apply_level lvls prices price amount).1.lookup q
      = if q = price then (if amount = 0 then none else some amount)
        else lvls.lookup q := by
  obtain ⟨hsort, hmem, hpos, hnd⟩ := hinv
  unfold _apply_level
  by_cases h0 : amount = 0
  · rw [if_pos h0]
    by_cases hsome : (lvls.lookup price).isSome = true
    · rw [if_pos hsome]
      obtain ⟨hrs, hrm⟩ := remove_price_spec prices price hsort
      refine ⟨⟨hrs, ?_, ?_, nodup_keys_delKey _ _ hnd⟩, ?_⟩
      · intro p
        rw [hrm p, lookup_delKey _ _ _ hnd]
        by_cases hp : p = price
        · subst hp
          simp
        · rw [if_neg hp]
          rw [hmem p]
          constructor
          · exact fun h => h.1
          · exact fun h => ⟨h, hp⟩
      · intro p v hv
        rw [lookup_delKey _ _ _ hnd] at hv
        split at hv
        · exact absurd hv (by simp)
        · exact hpos p v hv
      · intro q
        rw [lookup_delKey _ _ _ hnd, if_pos h0]
    · rw [if_neg hsome]
      refine ⟨⟨hsort, hmem, hpos, hnd⟩, ?_⟩
      intro q
      by_cases hq : q = price
      · subst hq
        rw [if_pos rfl, if_pos h0]
        exact Option.not_isSome_iff_eq_none.mp hsome
      · rw [if_neg hq]
  · rw [if_neg h0]
    obtain ⟨his, him⟩ := insert_price_spec prices price hsort
    refine ⟨⟨his, ?_, ?_, nodup_keys_setKey _ _ _ hnd⟩, ?_⟩
    · intro p
      rw [him p, lookup_setKey]
      by_cases hp : p = price
      · subst hp
        simp
      · rw [if_neg hp, hmem p]
        constructor
        · rintro (h | h)
          · exact absurd h hp
          · exact h
        · exact Or.inr
    · intro p v hv
      rw [lookup_setKey] at hv
      split at hv
      · simp only [Option.some.injEq] at hv
        omega
      · exact hpos p v hv
    · intro q
      rw [lookup_setKey, if_neg h0]

/-- Invariant of the whole book. -/
def BookInv (b : BookPy) : Prop :=
  SideInv b.bids b.bid_prices ∧ SideInv b.asks b.ask_prices

theorem bookReset_inv (b : BookPy) : BookInv (bookReset b) := by
  refine ⟨⟨List.sorted_nil, ?_, ?_, List.nodup_nil⟩,
    ⟨List.sorted_nil, ?_, ?_, List.nodup_nil⟩⟩ <;>
    simp [bookReset, List.lookup]

theorem bookReset_reject (b : BookPy) :
    (bookReset b).reject_crossed = b.reject_crossed := rfl

theorem book_init_inv (rc : Bool) : BookInv (book_init rc) :=
  bookReset_inv _

theorem apply_update_inv (b : BookPy) (u : L2Update) (hinv : BookInv b)
    (hp : 0 < u.price_ticks) (ha : 0 ≤ u.amount_lots) :
    ∃ b2, _apply_update b u = .ok b2 ∧ BookInv b2 ∧
      b2.reject_crossed = b.reject_crossed := by
  obtain ⟨s, pt, am, sn⟩ := u
  simp only at hp ha
  unfold _apply_update
  simp only [if_neg (by omega : ¬ pt ≤ 0), if_neg (by omega : ¬ am < 0)]
  cases s with
  | bid =>
    refine ⟨_, rfl, ⟨(apply_level_spec b.bids b.bid_prices pt am hinv.1 ha).1,
      hinv.2⟩, rfl⟩
  | ask =>
    refine ⟨_, rfl, ⟨hinv.1,
      (apply_level_spec b.asks b.ask_prices pt am hinv.2 ha).1⟩, rfl⟩

theorem apply_updates_inv : ∀ (us : List L2Update) (b : BookPy),
    BookInv b → (∀ u ∈ us, 0 < u.price_ticks ∧ 0 ≤ u.amount_lots) →
    ∃ b2, applyUpdates b us = .ok b2 ∧ BookInv b2 ∧
      b2.reject_crossed = b.reject_crossed := by
  intro us
  induction us with
  | nil => exact fun b hinv _ => ⟨b, rfl, hinv, rfl⟩
  | cons u t ih =>
    intro b hinv hval
    obtain ⟨hu1, hu2⟩ := hval u (List.mem_cons_self u t)
    obtain ⟨b2, hb2, hinv2, hrej2⟩ := apply_update_inv b u hinv hu1 hu2
    obtain ⟨b3, hb3, hinv3, hrej3⟩ :=
      ih b2 hinv2 (fun x hx => hval x (List.mem_cons_of_mem u hx))
    refine ⟨b3, ?_, hinv3, by rw [hrej3, hrej2]⟩
    simp only [applyUpdates, hb2, hb3]

theorem getD_last_mem (a : List Int) (h : a ≠ []) :
    a.getD (a.length - 1) 0 ∈ a := by
  have hl : 0 < a.length := List.length_pos.mpr h
  rw [List.getD_eq_getElem _ 0 (by omega)]
  exact List.getElem_mem _

theorem getD_head_mem (a : List Int) (h : a ≠ []) : a.getD 0 0 ∈ a := by
  have hl : 0 < a.length := List.length_pos.mpr h
  rw [List.getD_eq_getElem _ 0 (by omega)]
  exact List.getElem_mem _

theorem sorted_le_last (a : List Int) (hs : List.Sorted (· < ·) a)
    (x : Int) (hx : x ∈ a) : x ≤ a.getD (a.length - 1) 0 := by
  obtain ⟨i, hi, hix⟩ := List.getElem_of_mem hx
  have := sorted_getD_mono a hs i (a.length - 1) (by omega) (by omega)
  rw [List.getD_eq_getElem _ 0 hi] at this
  omega

theorem sorted_head_le (a : List Int) (hs : List.Sorted (· < ·) a)
    (x : Int) (hx : x ∈ a) : a.getD 0 0 ≤ x := by
  obtain ⟨i, hi, hix⟩ := List.getElem_of_mem hx
  have := sorted_getD_mono a hs 0 i (by omega) hi
  rw [List.getD_eq_getElem _ 0 hi] at this
  omega

/-- C8: with `reject_crossed` on and a batch of valid updates,
`apply_l2_batch` fails with `SchemaError "crossed book"` precisely when,
after the (possibly reset-prefixed) update application, both sides are
non-empty and some bid price reaches some ask price (equivalently
`max bid ≥ min ask`); and every successfully applied state has its best bid
strictly below its best ask whenever both are present. -/
theorem c8_crossed_book (b : BookPy) (batch : L2Batch)
    (hinv : BookInv b) (hrej : b.reject_crossed = true)
    (hval : ∀ u ∈ batch.updates, 0 < u.price_ticks ∧ 0 ≤ u.amount_lots) :
    ∃ st1, applyUpdates (if batch.resets_book then bookReset b else b)
        batch.updates = .ok st1 ∧
      (apply_l2_batch b batch = .error (.schema "crossed book") ↔
        (st1.bid_prices ≠ [] ∧ st1.ask_prices ≠ [] ∧
          ∃ bp ∈ st1.bid_prices, ∃ ap ∈ st1.ask_prices, ap ≤ bp)) ∧
      (∀ e, apply_l2_batch b batch = .error e → e = .schema "crossed book") ∧
      (∀ st2, apply_l2_batch b batch = .ok st2 → st2 = st1 ∧
        ∀ bpx bqty apx aqty,
          best_bid_ask st2 = (some bpx, some bqty, some apx, some aqty) →
          bpx < apx) := by
  have hinv0 : BookInv (if batch.resets_book then bookReset b else b) := by
    split
    · exact bookReset_inv b
    · exact hinv
  have hrej0 : (if batch.resets_book then bookReset b else b).reject_crossed
      = true := by
    split
    · rw [bookReset_reject]; exact hrej
    · exact hrej
  obtain ⟨st1, hap, hinv1, hrej1⟩ :=
    apply_updates_inv batch.updates _ hinv0 hval
  rw [hrej0] at hrej1
  have happly : apply_l2_batch b batch =
      (match _check_crossed st1 with
       | .error e => .error e
       | .ok _ => .ok st1) := by
    unfold apply_l2_batch
    simp only [hap, hrej1]
    rw [if_pos trivial]
  have hcross_iff : (st1.bid_prices ≠ [] ∧ st1.ask_prices ≠ [] ∧
      ∃ bp ∈ st1.bid_prices, ∃ ap ∈ st1.ask_prices, ap ≤ bp) ↔
      (¬ (st1.bid_prices = [] ∨ st1.ask_prices = []) ∧
        st1.ask_prices.getD 0 0
          ≤ st1.bid_prices.getD (st1.bid_prices.length - 1) 0) := by
    constructor
    · rintro ⟨hb, ha, bp, hbp, ap, hap2, hle⟩
      refine ⟨by tauto, ?_⟩
      have h1 := sorted_le_last st1.bid_prices hinv1.1.1 bp hbp
      have h2 := sorted_head_le st1.ask_prices hinv1.2.1 ap hap2
      omega
    · rintro ⟨hne, hle⟩
      push_neg at hne
      exact ⟨hne.1, hne.2,
        st1.bid_prices.getD (st1.bid_prices.length - 1) 0,
        getD_last_mem _ hne.1,
        st1.ask_prices.getD 0 0, getD_head_mem _ hne.2, hle⟩
  refine ⟨st1, hap, ?_, ?_, ?_⟩
  · rw [happly, hcross_iff]
    unfold _check_crossed
    by_cases hempty : st1.bid_prices = [] ∨ st1.ask_prices = []
    · rw [if_pos hempty]
      simp only []
      constructor
      · intro h; cases h
      · rintro ⟨h, -⟩; exact absurd hempty h
    · rw [if_neg hempty]
      by_cases hle : st1.ask_prices.getD 0 0
          ≤ st1.bid_prices.getD (st1.bid_prices.length - 1) 0
      · rw [if_pos hle]
        simp only []
        exact ⟨fun _ => ⟨hempty, hle⟩, fun _ => trivial⟩
      · rw [if_neg hle]
        constructor
        · intro h; cases h
        · rintro ⟨-, h⟩; exact absurd h hle
  · intro e he
    rw [happly] at he
    unfold _check_crossed at he
    by_cases hempty : st1.bid_prices = [] ∨ st1.ask_prices = []
    · rw [if_pos hempty] at he
      cases he
    · rw [if_neg hempty] at he
      by_cases hle : st1.ask_prices.getD 0 0
          ≤ st1.bid_prices.getD (st1.bid_prices.length - 1) 0
      · rw [if_pos hle] at he
        simp only [Except.error.injEq] at he
        exact he.symm
      · rw [if_neg hle] at he
        cases he
  · intro st2 hok
    rw [happly] at hok
    unfold _check_crossed at hok
    by_cases hempty : st1.bid_prices = [] ∨ st1.ask_prices = []
    · rw [if_pos hempty] at hok
      simp only [Except.ok.injEq] at hok
      subst hok
      refine ⟨rfl, ?_⟩
      intro bpx bqty apx aqty hbest
      exfalso
      unfold best_bid_ask at hbest
      rcases hempty with hb | ha
      · rw [if_pos hb] at hbest
        simp at hbest
      · rw [if_pos ha] at hbest
        rcases Prod.mk.injEq .. ▸ hbest with h
        simp only [Prod.mk.injEq] at hbest
        exact absurd hbest.2.2.1 (by simp)
    · rw [if_neg hempty] at hok
      by_cases hle : st1.ask_prices.getD 0 0
          ≤ st1.bid_prices.getD (st1.bid_prices.length - 1) 0
      · rw [if_pos hle] at hok
        cases hok
      · rw [if_neg hle] at hok
        simp only [Except.ok.injEq] at hok
        subst hok
        refine ⟨rfl, ?_⟩
        intro bpx bqty apx aqty hbest
        push_neg at hempty
        unfold best_bid_ask at hbest
        rw [if_neg hempty.1, if_neg hempty.2] at hbest
        simp only [Prod.mk.injEq, Option.some.injEq] at hbest
        obtain ⟨h1, -, h3, -⟩ := hbest
        omega

/-- A client-visible operation on the reference book. -/
inductive BookOp where
  | opReset
  | opApply (batch : L2Batch)
  deriving Repr

/-- Runs a sequence of `reset` / `apply_l2_batch` calls from a given state. -/
def run_book_ops : BookPy → List BookOp → Except BTError BookPy
  | b, [] => .ok b
  | b, .opReset :: t => run_book_ops (bookReset b) t
  | b, .opApply batch :: t =>
    match apply_l2_batch b batch with
    | .error e => .error e
    | .ok b2 => run_book_ops b2 t

theorem apply_batch_inv (b : BookPy) (batch : L2Batch) (hinv : BookInv b)
    (hval : ∀ u ∈ batch.updates, 0 < u.price_ticks ∧ 0 ≤ u.amount_lots) :
    ∀ st2, apply_l2_batch b batch = .ok st2 → BookInv st2 := by
  intro st2 hok
  have hinv0 : BookInv (if batch.resets_book then bookReset b else b) := by
    split
    · exact bookReset_inv b
    · exact hinv
  obtain ⟨st1, hap, hinv1, -⟩ := apply_updates_inv batch.updates _ hinv0 hval
  unfold apply_l2_batch at hok
  simp only [hap] at hok
  by_cases hrej : st1.reject_crossed = true
  · rw [if_pos hrej] at hok
    cases hcc : _check_crossed st1 with
    | error e => rw [hcc] at hok; cases hok
    | ok u =>
      rw [hcc] at hok
      simp only [Except.ok.injEq] at hok
      exact hok ▸ hinv1
  · rw [if_neg hrej] at hok
    simp only [Except.ok.injEq] at hok
    exact hok ▸ hinv1

theorem run_book_ops_inv : ∀ (ops : List BookOp) (b : BookPy),
    BookInv b →
    (∀ op ∈ ops, ∀ batch, op = .opApply batch →
      ∀ u ∈ batch.updates, 0 < u.price_ticks ∧ 0 ≤ u.amount_lots) →
    ∀ st, run_book_ops b ops = .ok st → BookInv st := by
  intro ops
  induction ops with
  | nil =>
    intro b hinv _ st hrun
    simp only [run_book_ops, Except.ok.injEq] at hrun
    exact hrun ▸ hinv
  | cons op t ih =>
    intro b hinv hval st hrun
    cases op with
    | opReset =>
      exact ih (bookReset b) (bookReset_inv b)
        (fun o ho => hval o (List.mem_cons_of_mem _ ho)) st hrun
    | opApply batch =>
      simp only [run_book_ops] at hrun
      cases happ : apply_l2_batch b batch with
      | error e => rw [happ] at hrun; cases hrun
      | ok b2 =>
        rw [happ] at hrun
        have hv := hval _ (List.mem_cons_self _ _) batch rfl
        exact ih b2 (apply_batch_inv b batch hinv hv b2 happ)
          (fun o ho => hval o (List.mem_cons_of_mem _ ho)) st hrun

/-- C10: after any finite sequence of `reset`/`apply_l2_batch` operations
with valid updates from a fresh book, the state satisfies the maintained
invariant (strictly increasing duplicate-free price arrays whose elements
are exactly the side map's keys, all stored sizes positive); hence
`best_bid_ask` never reports a non-positive quantity for a non-empty side,
and `levels` reports only existing levels with positive sizes. -/
theorem c10_book_state_invariants (ops : List BookOp) (rc : Bool)
    (hval : ∀ op ∈ ops, ∀ batch, op = .opApply batch →
      ∀ u ∈ batch.updates, 0 < u.price_ticks ∧ 0 ≤ u.amount_lots)
    (st : BookPy) (hrun : run_book_ops (book_init rc) ops = .ok st) :
    BookInv st ∧
    (∀ q, (best_bid_ask st).2.1 = some q → 0 < q) ∧
    (∀ q, (best_bid_ask st).2.2.2 = some q → 0 < q) ∧
    (∀ side depth,
      (levels st side depth).2.length = (levels st side depth).1.length ∧
      ∀ i, i < (levels st side depth).1.length →
        (match side with | .bid => st.bids | .ask => st.asks).lookup
            ((levels st side depth).1.getD i 0)
          = some ((levels st side depth).2.getD i 0) ∧
        0 < (levels st side depth).2.getD i 0) := by
  have hinv : BookInv st :=
    run_book_ops_inv ops (book_init rc) (book_init_inv rc) hval st hrun
  have hlook : ∀ (lvls : List (Int × Int)) (prices : List Int),
      SideInv lvls prices → ∀ p, p ∈ prices →
      lvls.lookup p = some ((lvls.lookup p).getD 0) ∧
      0 < (lvls.lookup p).getD 0 := by
    intro lvls prices hsi p hp
    have hsome := (hsi.2.1 p).mp hp
    obtain ⟨v, hv⟩ := Option.isSome_iff_exists.mp hsome
    rw [hv]
    exact ⟨rfl, by simpa using hsi.2.2.1 p v hv⟩
  refine ⟨hinv, ?_, ?_, ?_⟩
  · intro q hq
    unfold best_bid_ask at hq
    by_cases hb : st.bid_prices = []
    · rw [if_pos hb] at hq
      simp at hq
    · rw [if_neg hb] at hq
      simp only [Option.some.injEq] at hq
      obtain ⟨-, h2⟩ := hlook st.bids st.bid_prices hinv.1 _
        (getD_last_mem _ hb)
      omega
  · intro q hq
    unfold best_bid_ask at hq
    by_cases ha : st.ask_prices = []
    · rw [if_pos ha] at hq
      simp at hq
    · rw [if_neg ha] at hq
      simp only [Option.some.injEq] at hq
      obtain ⟨-, h2⟩ := hlook st.asks st.ask_prices hinv.2 _
        (getD_head_mem _ ha)
      omega
  · intro side depth
    unfold levels
    by_cases hd : depth ≤ 0
    · rw [if_pos hd]
      exact ⟨by trivial, fun i hi => absurd hi (by simp)⟩
    · rw [if_neg hd]
      simp only [List.length_map]
      refine ⟨trivial, ?_⟩
      intro i hi
      simp only [List.length_take] at hi
      cases side with
      | bid =>
        simp only []
        have hil : i < (st.bid_prices.reverse.take depth.toNat).length := by
          simpa using hi
        have hmem : (st.bid_prices.reverse.take depth.toNat).getD i 0
            ∈ st.bid_prices := by
          rw [List.getD_eq_getElem _ 0 hil]
          have := List.mem_of_mem_take (List.getElem_mem hil)
          rwa [List.mem_reverse] at this
        obtain ⟨h1, h2⟩ := hlook st.bids st.bid_prices hinv.1 _ hmem
        have hmap : ((st.bid_prices.reverse.take depth.toNat).map
            (fun p => (st.bids.lookup p).getD 0)).getD i 0
            = (st.bids.lookup
              ((st.bid_prices.reverse.take depth.toNat).getD i 0)).getD 0 := by
          rw [List.getD_eq_getElem _ 0 (by simpa using hil),
            List.getElem_map, List.getD_eq_getElem _ 0 hil]
        rw [hmap]
        exact ⟨h1, h2⟩
      | ask =>
        simp only []
        have hil : i < (st.ask_prices.take depth.toNat).length := by
          simpa using hi
        have hmem : (st.ask_prices.take depth.toNat).getD i 0
            ∈ st.ask_prices := by
          rw [List.getD_eq_getElem _ 0 hil]
          exact List.mem_of_mem_take (List.getElem_mem hil)
        obtain ⟨h1, h2⟩ := hlook st.asks st.ask_prices hinv.2 _ hmem
        have hmap : ((st.ask_prices.take depth.toNat).map
            (fun p => (st.asks.lookup p).getD 0)).getD i 0
            = (st.asks.lookup
              ((st.ask_prices.take depth.toNat).getD i 0)).getD 0 := by
          rw [List.getD_eq_getElem _ 0 (by simpa using hil),
            List.getElem_map, List.getD_eq_getElem _ 0 hil]
        rw [hmap]
        exact ⟨h1, h2⟩

theorem c8_crossed_book_witness :
    apply_l2_batch (book_init true)
        ⟨1000000, 900000, true, [⟨Side.bid, 10, 1, true⟩, ⟨Side.ask, 9, 1, true⟩]⟩
      = .error (.schema "crossed book") := by
  obtain ⟨st1, hap, hiff, -, -⟩ := c8_crossed_book (book_init true)
    ⟨1000000, 900000, true, [⟨Side.bid, 10, 1, true⟩, ⟨Side.ask, 9, 1, true⟩]⟩
    (book_init_inv true) rfl (by decide)
  have h2 : applyUpdates (if (⟨1000000, 900000, true,
      [⟨Side.bid, 10, 1, true⟩, ⟨Side.ask, 9, 1, true⟩]⟩ : L2Batch).resets_book
      then bookReset (book_init true) else book_init true)
      (⟨1000000, 900000, true, [⟨Side.bid, 10, 1, true⟩,
        ⟨Side.ask, 9, 1, true⟩]⟩ : L2Batch).updates
      = .ok ⟨true, [(10, 1)], [(9, 1)], [10], [9]⟩ := by decide
  have hst : st1 = ⟨true, [(10, 1)], [(9, 1)], [10], [9]⟩ := by
    have h3 := hap.symm.trans h2
    simpa using h3
  rw [hiff, hst]
  refine ⟨by decide, by decide, 10, by decide, 9, by decide, by decide⟩

theorem c10_book_state_invariants_witness :
    BookInv ⟨true, [(10, 1)], [(11, 2)], [10], [11]⟩ := by
  have h := c10_book_state_invariants
    [.opApply ⟨1000000, 900000, true,
      [⟨Side.bid, 10, 1, true⟩, ⟨Side.ask, 11, 2, true⟩]⟩] true
    (by
      intro op hop batch hbeq
      simp only [List.mem_singleton] at hop
      subst hop
      injection hbeq with h1
      subst h1
      decide)
    ⟨true, [(10, 1)], [(11, 2)], [10], [11]⟩ (by decide)
  exact h.1

/-! ## Event log writer and reader: `mm_bt/evlog/writer.py`, `reader.py` -/

/-- The per-update validation and packing loop of `write_l2_batch`:
`struct` layout `<B B H q q I` = side, is_snapshot, reserved16,
price_ticks, amount_lots, reserved32. -/
def packUpdates : List L2Update → Except BTError (List Nat)
  | [] => .ok []
  | u :: t =>
    if u.side.toInt ≠ 0 ∧ u.side.toInt ≠ 1 then .error (.schema "invalid side")
    else if u.price_ticks < -9223372036854775808 ∨
        u.price_ticks > 9223372036854775807 then
      .error (.schema "price_ticks out of int64 range")
    else if u.amount_lots < -9223372036854775808 ∨
        u.amount_lots > 9223372036854775807 then
      .error (.schema "amount_lots out of int64 range")
    else if u.price_ticks ≤ 0 then .error (.schema "non-positive price_ticks")
    else if u.amount_lots < 0 then .error (.schema "negative amount_lots")
    else
      match packUpdates t with
      | .error e => .error e
      | .ok bs =>
        .ok (([u.side.toInt.toNat, if u.is_snapshot then 1 else 0, 0, 0]
          ++ encI64 u.price_ticks ++ encI64 u.amount_lots
          ++ [0, 0, 0, 0]) ++ bs)

/-- Embeds `EvlogWriter.write_l2_batch`: range and sign validation, the
8-byte record header `<B B H I` (rec_type 1, flags 0, reserved 0, length),
then the `<q q B 3x I` batch header and the packed updates. -/
def write_l2_batch (batch : L2Batch) : Except BTError (List Nat) :=
  if batch.ts_recv_ns < -9223372036854775808 ∨
      batch.ts_recv_ns > 9223372036854775807 then
    .error (.schema "ts_recv_ns out of int64 range")
  else if batch.ts_exch_ns < -9223372036854775808 ∨
      batch.ts_exch_ns > 9223372036854775807 then
    .error (.schema "ts_exch_ns out of int64 range")
  else if batch.ts_recv_ns < 0 ∨ batch.ts_exch_ns < 0 then
    .error (.schema "negative timestamp")
  else if batch.updates.length > 4294967295 then
    .error (.schema "update_count out of u32 range")
  else if (24 + batch.updates.length * 24) % 8 ≠ 0 then
    .error (.schema "l2 payload size not 8-byte aligned")
  else if 24 + batch.updates.length * 24 > 4294967295 then
    .error (.schema "payload length out of u32 range")
  else
    match packUpdates batch.updates with
    | .error e => .error e
    | .ok ubytes =>
      .ok (([1, 0, 0, 0] ++ encU 4 (24 + batch.updates.length * 24))
        ++ (encI64 batch.ts_recv_ns ++ encI64 batch.ts_exch_ns
          ++ [if batch.resets_book then 1 else 0, 0, 0, 0]
          ++ encU 4 batch.updates.length ++ ubytes))

/-- The update-decoding loop of `_decode_l2_payload`, one 24-byte record
per update, with the reader's validation. -/
def decodeUpdates : Nat → List Nat → Except BTError (List L2Update)
  | 0, _ => .ok []
  | n + 1, bs =>
    let side_value := bs.getD 0 0
    let is_snapshot := bs.getD 1 0
    let r16 := decU ((bs.drop 2).take 2)
    let price_ticks := decI64 ((bs.drop 4).take 8)
    let amount_lots := decI64 ((bs.drop 12).take 8)
    let r32 := decU ((bs.drop 20).take 4)
    if r16 ≠ 0 ∨ r32 ≠ 0 then
      .error (.schema "non-zero l2 update reserved fields")
    else if side_value ≠ 0 ∧ side_value ≠ 1 then .error (.schema "invalid side")
    else if is_snapshot ≠ 0 ∧ is_snapshot ≠ 1 then
      .error (.schema "invalid is_snapshot flag")
    else if price_ticks ≤ 0 then .error (.schema "non-positive price_ticks")
    else if amount_lots < 0 then .error (.schema "negative amount_lots")
    else
      match decodeUpdates n (bs.drop 24) with
      | .error e => .error e
      | .ok us =>
        .ok (⟨if side_value = 0 then Side.bid else Side.ask,
          price_ticks, amount_lots, is_snapshot = 1⟩ :: us)

/-- Embeds `_decode_l2_payload` from `mm_bt/evlog/reader.py`. -/
def _decode_l2_payload (payload : List Nat) : Except BTError L2Batch :=
  if payload.length < 24 then .error (.schema "l2 payload too small")
  else
    let ts_recv_ns := decI64 (payload.take 8)
    let ts_exch_ns := decI64 ((payload.drop 8).take 8)
    let resets_book := payload.getD 16 0
    let update_count := decU ((payload.drop 20).take 4)
    if ts_recv_ns < 0 ∨ ts_exch_ns < 0 then .error (.schema "negative timestamp")
    else if resets_book ≠ 0 ∧ resets_book ≠ 1 then
      .error (.schema "invalid resets_book flag")
    else if payload.length ≠ 24 + update_count * 24 then
      .error (.schema "l2 payload size mismatch")
    else
      match decodeUpdates update_count (payload.drop 24) with
      | .error e => .error e
      | .ok us => .ok ⟨ts_recv_ns, ts_exch_ns, resets_book = 1, us⟩

/-- Embeds the record loop of `EvlogReader.iter_l2_batches` on the byte
stream that follows the file header: read an 8-byte record header, validate,
slice the payload, decode, repeat until end of stream. -/
def iter_l2_batches (bs : List Nat) : Except BTError (List L2Batch) :=
  if bs = [] then .ok []
  else if bs.length < 8 then .error (.schema "truncated record header")
  else
    let rec_type := bs.getD 0 0
    let flags := bs.getD 1 0
    let reserved := decU ((bs.drop 2).take 2)
    let payload_len := decU ((bs.drop 4).take 4)
    if flags ≠ 0 then .error (.schema "non-zero record flags")
    else if reserved ≠ 0 then .error (.schema "non-zero record reserved field")
    else if payload_len % 8 ≠ 0 then
      .error (.schema "payload length not 8-byte aligned")
    else if (bs.drop 8).length < payload_len then
      .error (.schema "truncated payload")
    else if rec_type = 1 then
      match _decode_l2_payload ((bs.drop 8).take payload_len) with
      | .error e => .error e
      | .ok b =>
        match iter_l2_batches ((bs.drop 8).drop payload_len) with
        | .error e => .error e
        | .ok batches => .ok (b :: batches)
    else .error (.schema "unknown record type")
termination_by bs.length
decreasing_by
  simp only [List.length_drop]
  cases bs with
  | nil => simp_all
  | cons x t => simp; omega

theorem decodeUpdates_cons_eq (sv sb : Nat) (p a : Int) (n : Nat)
    (tb rest : List Nat) (hsv : sv = 0 ∨ sv = 1) (hsb : sb = 0 ∨ sb = 1)
    (hp0 : 0 < p) (hp1 : p < 9223372036854775808)
    (ha0 : 0 ≤ a) (ha1 : a < 9223372036854775808) :
    decodeUpdates (n + 1)
      (sv :: sb :: 0 :: 0 ::
        (encI64 p ++ (encI64 a ++ ([0, 0, 0, 0] ++ (tb ++ rest)))))
      = match decodeUpdates n (tb ++ rest) with
        | .error e => .error e
        | .ok us => .ok (⟨if sv = 0 then Side.bid else Side.ask, p, a,
            decide (sb = 1)⟩ :: us) := by
  have h4 : (sv :: sb :: 0 :: 0 ::
      (encI64 p ++ (encI64 a ++ ([0, 0, 0, 0] ++ (tb ++ rest))))).drop 4
      = encI64 p ++ (encI64 a ++ ([0, 0, 0, 0] ++ (tb ++ rest))) := rfl
  have h12 : (sv :: sb :: 0 :: 0 ::
      (encI64 p ++ (encI64 a ++ ([0, 0, 0, 0] ++ (tb ++ rest))))).drop 12
      = encI64 a ++ ([0, 0, 0, 0] ++ (tb ++ rest)) := by
    rw [show (12 : Nat) = 4 + 8 from rfl, ← List.drop_drop, h4,
      List.drop_left' (encI64_length _)]
  have h20 : (sv :: sb :: 0 :: 0 ::
      (encI64 p ++ (encI64 a ++ ([0, 0, 0, 0] ++ (tb ++ rest))))).drop 20
      = [0, 0, 0, 0] ++ (tb ++ rest) := by
    rw [show (20 : Nat) = 12 + 8 from rfl, ← List.drop_drop, h12,
      List.drop_left' (encI64_length _)]
  have h24 : (sv :: sb :: 0 :: 0 ::
      (encI64 p ++ (encI64 a ++ ([0, 0, 0, 0] ++ (tb ++ rest))))).drop 24
      = tb ++ rest := by
    rw [show (24 : Nat) = 20 + 4 from rfl, ← List.drop_drop, h20]
    rfl
  have hD : decI64 (((sv :: sb :: 0 :: 0 ::
      (encI64 p ++ (encI64 a ++ ([0, 0, 0, 0] ++ (tb ++ rest))))).drop 4).take 8)
      = p := by
    rw [h4, List.take_left' (encI64_length _), decI64_encI64 (by omega) hp1]
  have hE : decI64 (((sv :: sb :: 0 :: 0 ::
      (encI64 p ++ (encI64 a ++ ([0, 0, 0, 0] ++ (tb ++ rest))))).drop 12).take 8)
      = a := by
    rw [h12, List.take_left' (encI64_length _), decI64_encI64 (by omega) ha1]
  have hF : decU (((sv :: sb :: 0 :: 0 ::
      (encI64 p ++ (encI64 a ++ ([0, 0, 0, 0] ++ (tb ++ rest))))).drop 20).take 4)
      = 0 := by
    rw [h20, List.take_left' (by rfl : ([0, 0, 0, 0] : List Nat).length = 4)]
    rfl
  have hC : decU (((sv :: sb :: 0 :: 0 ::
      (encI64 p ++ (encI64 a ++ ([0, 0, 0, 0] ++ (tb ++ rest))))).drop 2).take 2)
      = 0 := rfl
  simp only [decodeUpdates, List.getD_cons_zero, List.getD_cons_succ,
    hC, hD, hE, hF, h24]
  rw [if_neg (by simp), if_neg (by omega), if_neg (by omega),
    if_neg (by omega), if_neg (by omega)]

theorem packUpdates_spec : ∀ (us : List L2Update) (ub : List Nat),
    packUpdates us = .ok ub →
    ub.length = 24 * us.length ∧
    ∀ rest, decodeUpdates us.length (ub ++ rest) = .ok us := by
  intro us
  induction us with
  | nil =>
    intro ub h
    simp only [packUpdates, Except.ok.injEq] at h
    subst h
    exact ⟨rfl, fun rest => rfl⟩
  | cons u t ih =>
    intro ub h
    simp only [packUpdates] at h
    rw [if_neg (by cases u.side <;> simp [Side.toInt])] at h
    split at h
    · cases h
    split at h
    · cases h
    rename_i hpr har
    split at h
    · cases h
    split at h
    · cases h
    rename_i hple halt
    cases hpt : packUpdates t with
    | error e => rw [hpt] at h; cases h
    | ok tb =>
      rw [hpt] at h
      simp only [Except.ok.injEq] at h
      subst h
      obtain ⟨hlen, hdec⟩ := ih tb hpt
      push_neg at hpr har hple halt
      constructor
      · simp only [List.length_append, List.length_cons, encI64_length, hlen]
        simp
        ring
      · intro rest
        have hshape : (([u.side.toInt.toNat, if u.is_snapshot then 1 else 0,
              0, 0] ++ encI64 u.price_ticks ++ encI64 u.amount_lots
              ++ [0, 0, 0, 0]) ++ tb) ++ rest
            = u.side.toInt.toNat :: (if u.is_snapshot then 1 else 0) :: 0 :: 0 ::
              (encI64 u.price_ticks ++ (encI64 u.amount_lots
                ++ ([0, 0, 0, 0] ++ (tb ++ rest)))) := by
          simp [List.append_assoc]
        rw [List.length_cons, hshape,
          decodeUpdates_cons_eq _ _ _ _ _ _ _
            (by cases u.side <;> simp [Side.toInt])
            (by cases u.is_snapshot <;> simp)
            (by omega) (by omega) (by omega) (by omega),
          hdec rest]
        have hu : (⟨if u.side.toInt.toNat = 0 then Side.bid else Side.ask,
            u.price_ticks, u.amount_lots,
            decide ((if u.is_snapshot then 1 else 0) = 1)⟩ : L2Update) = u := by
          obtain ⟨s, p, a, snap⟩ := u
          cases s <;> cases snap <;> simp [Side.toInt]
        rw [hu]

theorem write_l2_batch_spec (b : L2Batch) (r : List Nat)
    (hw : write_l2_batch b = .ok r) :
    ∀ rest, iter_l2_batches (r ++ rest)
      = match iter_l2_batches rest with
        | .error e => .error e
        | .ok bs => .ok (b :: bs) := by
  obtain ⟨ts1, ts2, rb, us⟩ := b
  unfold write_l2_batch at hw
  simp only at hw
  split at hw
  · cases hw
  split at hw
  · cases hw
  split at hw
  · cases hw
  split at hw
  · cases hw
  split at hw
  · cases hw
  split at hw
  · cases hw
  rename_i hr1 hr2 hts hcount halign hplen
  cases hpu : packUpdates us with
  | error e => rw [hpu] at hw; cases hw
  | ok ub =>
    rw [hpu] at hw
    simp only [Except.ok.injEq] at hw
    subst hw
    obtain ⟨hlen, hdec⟩ := packUpdates_spec us ub hpu
    push_neg at hr1 hr2 hts hcount hplen
    intro rest
    have hshape : (([1, 0, 0, 0] ++ encU 4 (24 + us.length * 24))
        ++ (encI64 ts1 ++ encI64 ts2
          ++ [if rb then 1 else 0, 0, 0, 0]
          ++ encU 4 us.length ++ ub)) ++ rest
      = 1 :: 0 :: 0 :: 0 :: (encU 4 (24 + us.length * 24)
          ++ (encI64 ts1 ++ (encI64 ts2
            ++ ((if rb then 1 else 0) :: 0 :: 0 :: 0 ::
              (encU 4 us.length ++ (ub ++ rest)))))) := by
      simp [List.append_assoc]
    have hX : encI64 ts1 ++ (encI64 ts2
        ++ ((if rb then 1 else 0) :: 0 :: 0 :: 0 ::
          (encU 4 us.length ++ (ub ++ rest))))
      = (encI64 ts1 ++ (encI64 ts2
          ++ ((if rb then 1 else 0) :: 0 :: 0 :: 0 ::
            (encU 4 us.length ++ ub)))) ++ rest := by
      simp [List.append_assoc]
    have hP2len : (encI64 ts1 ++ (encI64 ts2
        ++ ((if rb then 1 else 0) :: 0 :: 0 :: 0 ::
          (encU 4 us.length ++ ub)))).length = 24 + us.length * 24 := by
      simp [List.length_append, encI64_length, encU_length, hlen]
      ring
    rw [hshape]
    rw [iter_l2_batches]
    rw [if_neg (by simp), if_neg (by simp)]
    have hdrop4 : (1 :: 0 :: 0 :: 0 :: (encU 4 (24 + us.length * 24)
        ++ (encI64 ts1 ++ (encI64 ts2
          ++ ((if rb then 1 else 0) :: 0 :: 0 :: 0 ::
            (encU 4 us.length ++ (ub ++ rest))))))).drop 4
        = encU 4 (24 + us.length * 24)
          ++ (encI64 ts1 ++ (encI64 ts2
            ++ ((if rb then 1 else 0) :: 0 :: 0 :: 0 ::
              (encU 4 us.length ++ (ub ++ rest))))) := rfl
    have hplenval : decU (((1 :: 0 :: 0 :: 0 :: (encU 4 (24 + us.length * 24)
        ++ (encI64 ts1 ++ (encI64 ts2
          ++ ((if rb then 1 else 0) :: 0 :: 0 :: 0 ::
            (encU 4 us.length ++ (ub ++ rest))))))).drop 4).take 4)
        = 24 + us.length * 24 := by
      rw [hdrop4, List.take_left' (encU_length 4 _),
        decU_encU_of_lt (by norm_num; omega)]
    have hdrop8 : (1 :: 0 :: 0 :: 0 :: (encU 4 (24 + us.length * 24)
        ++ (encI64 ts1 ++ (encI64 ts2
          ++ ((if rb then 1 else 0) :: 0 :: 0 :: 0 ::
            (encU 4 us.length ++ (ub ++ rest))))))).drop 8
        = encI64 ts1 ++ (encI64 ts2
          ++ ((if rb then 1 else 0) :: 0 :: 0 :: 0 ::
            (encU 4 us.length ++ (ub ++ rest)))) := by
      rw [show (8 : Nat) = 4 + 4 from rfl, ← List.drop_drop, hdrop4,
        List.drop_left' (encU_length 4 _)]
    rw [hplenval]
    rw [if_neg (by simp), if_neg (by simp [decU]),
      if_neg (by omega), if_neg (by
        rw [hdrop8, hX]
        simp only [List.length_append, hP2len]
        omega)]
    rw [if_pos (by rfl)]
    rw [hdrop8, hX, List.take_left' hP2len, List.drop_left' hP2len]
    have hdecode : _decode_l2_payload (encI64 ts1 ++ (encI64 ts2
        ++ ((if rb then 1 else 0) :: 0 :: 0 :: 0 ::
          (encU 4 us.length ++ ub))))
        = .ok ⟨ts1, ts2, rb, us⟩ := by
      unfold _decode_l2_payload
      rw [if_neg (by rw [hP2len]; omega)]
      have e1 : decI64 ((encI64 ts1 ++ (encI64 ts2
          ++ ((if rb then 1 else 0) :: 0 :: 0 :: 0 ::
            (encU 4 us.length ++ ub)))).take 8) = ts1 := by
        rw [List.take_left' (encI64_length _), decI64_encI64 (by omega) (by omega)]
      have hd8 : (encI64 ts1 ++ (encI64 ts2
          ++ ((if rb then 1 else 0) :: 0 :: 0 :: 0 ::
            (encU 4 us.length ++ ub)))).drop 8
          = encI64 ts2 ++ ((if rb then 1 else 0) :: 0 :: 0 :: 0 ::
            (encU 4 us.length ++ ub)) := List.drop_left' (encI64_length _)
      have e2 : decI64 (((encI64 ts1 ++ (encI64 ts2
          ++ ((if rb then 1 else 0) :: 0 :: 0 :: 0 ::
            (encU 4 us.length ++ ub)))).drop 8).take 8) = ts2 := by
        rw [hd8, List.take_left' (encI64_length _),
          decI64_encI64 (by omega) (by omega)]
      have hd16 : (encI64 ts1 ++ (encI64 ts2
          ++ ((if rb then 1 else 0) :: 0 :: 0 :: 0 ::
            (encU 4 us.length ++ ub)))).drop 16
          = (if rb then 1 else 0) :: 0 :: 0 :: 0 ::
            (encU 4 us.length ++ ub) := by
        rw [show (16 : Nat) = 8 + 8 from rfl, ← List.drop_drop, hd8,
          List.drop_left' (encI64_length _)]
      have e3 : (encI64 ts1 ++ (encI64 ts2
          ++ ((if rb then 1 else 0) :: 0 :: 0 :: 0 ::
            (encU 4 us.length ++ ub)))).getD 16 0 = if rb then 1 else 0 := by
        rw [List.getD_append_right _ _ _ _ (by rw [encI64_length]; omega),
          encI64_length,
          List.getD_append_right _ _ _ _ (by rw [encI64_length]),
          encI64_length]
        rfl
      have hd20 : (encI64 ts1 ++ (encI64 ts2
          ++ ((if rb then 1 else 0) :: 0 :: 0 :: 0 ::
            (encU 4 us.length ++ ub)))).drop 20
          = encU 4 us.length ++ ub := by
        rw [show (20 : Nat) = 16 + 4 from rfl, ← List.drop_drop, hd16]
        rfl
      have e4 : decU (((encI64 ts1 ++ (encI64 ts2
          ++ ((if rb then 1 else 0) :: 0 :: 0 :: 0 ::
            (encU 4 us.length ++ ub)))).drop 20).take 4) = us.length := by
        rw [hd20, List.take_left' (encU_length 4 _),
          decU_encU_of_lt (by norm_num; omega)]
      have hd24 : (encI64 ts1 ++ (encI64 ts2
          ++ ((if rb then 1 else 0) :: 0 :: 0 :: 0 ::
            (encU 4 us.length ++ ub)))).drop 24
          = ub := by
        rw [show (24 : Nat) = 20 + 4 from rfl, ← List.drop_drop, hd20,
          List.drop_left' (encU_length 4 _)]
      simp only [e1, e2, e3, e4, hd24]
      rw [if_neg (by omega), if_neg (by cases rb <;> simp),
        if_neg (by rw [hP2len]; omega)]
      have hdu := hdec []
      rw [List.append_nil] at hdu
      rw [hdu]
      cases rb <;> simp
    rw [hdecode]

theorem iter_flatten_ok : ∀ (batches : List L2Batch)
    (recs : List (List Nat)),
    List.Forall₂ (fun b r => write_l2_batch b = .ok r) batches recs →
    iter_l2_batches recs.flatten = .ok batches := by
  intro batches recs hf
  induction hf with
  | nil => rw [iter_l2_batches]; simp
  | @cons b r bs rs hbr htail ih =>
    rw [List.flatten_cons, write_l2_batch_spec b r hbr rs.flatten, ih]

/-- C2: for every sequence of batches accepted by the writer's validation,
writing each batch with `write_l2_batch` and decoding the concatenated
records with the reader's `iter_l2_batches` yields exactly the original
batch sequence, in file order. -/
theorem c2_write_read_roundtrip (batches : List L2Batch)
    (recs : List (List Nat))
    (hw : List.Forall₂ (fun b r => write_l2_batch b = .ok r) batches recs) :
    iter_l2_batches recs.flatten = .ok batches :=
  iter_flatten_ok batches recs hw

theorem c2_write_read_roundtrip_witness :
    ∃ r, write_l2_batch ⟨1000, 900, true, [⟨Side.bid, 10, 1, true⟩]⟩
        = .ok r ∧
      iter_l2_batches r
        = .ok [⟨1000, 900, true, [⟨Side.bid, 10, 1, true⟩]⟩] := by
  obtain ⟨r, hr⟩ : ∃ r, write_l2_batch
      ⟨1000, 900, true, [⟨Side.bid, 10, 1, true⟩]⟩ = .ok r := by
    cases h : write_l2_batch ⟨1000, 900, true, [⟨Side.bid, 10, 1, true⟩]⟩ with
    | ok r => exact ⟨r, rfl⟩
    | error e =>
      have hsome : (write_l2_batch
          ⟨1000, 900, true, [⟨Side.bid, 10, 1, true⟩]⟩).toOption.isSome
          = true := by decide
      rw [h] at hsome
      simp [Except.toOption] at hsome
  have h2 := c2_write_read_roundtrip
    [⟨1000, 900, true, [⟨Side.bid, 10, 1, true⟩]⟩] [r]
    (List.Forall₂.cons hr List.Forall₂.nil)
  refine ⟨r, hr, ?_⟩
  simpa using h2

/-! ## Reader seek: `EvlogReader.seek_time` (`mm_bt/evlog/reader.py`) -/

/-- Embeds `EvlogReader.seek_time`: `bisect.bisect_left` on the cached
timestamp array, then seek to the matching entry's file offset; when every
cached timestamp is below the target, seek to end of file.  The value is the
resulting file position. -/
def seek_time (index : List IndexEntry) (target : Int) (fileLen : Nat) : Nat :=
  let idx := bisect_left (index.map IndexEntry.ts_recv_ns) target
  if index.length ≤ idx then fileLen
  else ((index.getD idx ⟨0, 0⟩).offset).toNat

theorem flatten_drop_eq (recs : List (List Nat)) (i : Nat) :
    recs.flatten.drop (List.take i recs).flatten.length
      = (recs.drop i).flatten := by
  have h : recs.flatten
      = (List.take i recs).flatten ++ (List.drop i recs).flatten := by
    rw [← List.flatten_append, List.take_append_drop]
  rw [h, List.drop_left]

/-- C7: with a loaded index whose cached timestamps are non-decreasing and
whose entries point at the record boundaries of a file consisting of an
opaque header followed by the writer's records (one per batch, offsets
matching the record boundaries), `seek_time` positions the reader so that
every index entry before the position has `ts_recv_ns < target` and every
entry from it on has `ts_recv_ns ≥ target`, and iterating from that
position decodes exactly the batches from that entry onward; when no entry
reaches the target the position is end-of-file and iteration yields no
batches. -/
theorem c7_seek_time (hdr : List Nat) (batches : List L2Batch)
    (recs : List (List Nat)) (index : List IndexEntry) (target : Int)
    (hw : List.Forall₂ (fun b r => write_l2_batch b = .ok r) batches recs)
    (hlen : index.length = recs.length)
    (hoff : ∀ i, i < index.length →
      (index.getD i ⟨0, 0⟩).offset = (hdr.length : Int)
        + (List.take i recs).flatten.length)
    (hmono : ∀ i j, i ≤ j → j < index.length →
      (index.getD i ⟨0, 0⟩).ts_recv_ns ≤ (index.getD j ⟨0, 0⟩).ts_recv_ns) :
    (∀ j, j < bisect_left (index.map IndexEntry.ts_recv_ns) target →
      (index.getD j ⟨0, 0⟩).ts_recv_ns < target) ∧
    (∀ j, bisect_left (index.map IndexEntry.ts_recv_ns) target ≤ j →
      j < index.length → target ≤ (index.getD j ⟨0, 0⟩).ts_recv_ns) ∧
    iter_l2_batches ((hdr ++ recs.flatten).drop
        (seek_time index target (hdr ++ recs.flatten).length))
      = .ok (batches.drop
        (bisect_left (index.map IndexEntry.ts_recv_ns) target)) := by
  have hmap_len : (index.map IndexEntry.ts_recv_ns).length = index.length :=
    List.length_map _ _
  have hgetDmap : ∀ j, j < index.length →
      (index.map IndexEntry.ts_recv_ns).getD j 0
        = (index.getD j ⟨0, 0⟩).ts_recv_ns := by
    intro j hj
    rw [List.getD_eq_getElem _ 0 (by rwa [hmap_len]), List.getElem_map,
      List.getD_eq_getElem _ _ hj]
  obtain ⟨hb1, hb2, hb3⟩ := bisect_left_spec (index.map IndexEntry.ts_recv_ns)
    target (by
      intro i j hij hj
      rw [hmap_len] at hj
      rw [hgetDmap i (by omega), hgetDmap j hj]
      exact hmono i j hij hj)
  rw [hmap_len] at hb3
  refine ⟨?_, ?_, ?_⟩
  · intro j hj
    have hjlen : j < index.length := by omega
    have := hb1 j hj
    rwa [hgetDmap j hjlen] at this
  · intro j h1 h2
    have := hb2 j h1 (by rwa [hmap_len])
    rwa [hgetDmap j h2] at this
  · have hblen : batches.length = recs.length := hw.length_eq
    by_cases hcase : index.length ≤ bisect_left
        (index.map IndexEntry.ts_recv_ns) target
    · rw [seek_time]
      simp only [if_pos hcase]
      rw [List.drop_length]
      rw [List.drop_eq_nil_of_le (by omega)]
      rw [iter_l2_batches]
      simp
    · have hlt : bisect_left (index.map IndexEntry.ts_recv_ns) target
          < index.length := by omega
      rw [seek_time]
      simp only [if_neg hcase]
      have hofftn : ((index.getD (bisect_left
            (index.map IndexEntry.ts_recv_ns) target) ⟨0, 0⟩).offset).toNat
          = hdr.length + (List.take (bisect_left
            (index.map IndexEntry.ts_recv_ns) target) recs).flatten.length := by
        rw [hoff _ hlt]
        omega
      rw [hofftn]
      rw [← List.drop_drop, List.drop_left, flatten_drop_eq]
      exact iter_flatten_ok _ _ (List.forall₂_drop _ hw)

theorem c7_seek_time_witness :
    ∃ r, write_l2_batch ⟨1000, 900, false, [⟨Side.ask, 5, 2, false⟩]⟩
        = .ok r ∧
      iter_l2_batches (([] ++ [r].flatten).drop
          (seek_time [⟨1000, 0⟩] 500 ([] ++ [r].flatten).length))
        = .ok [(⟨1000, 900, false, [⟨Side.ask, 5, 2, false⟩]⟩ : L2Batch)] := by
  obtain ⟨r, hr⟩ : ∃ r, write_l2_batch
      ⟨1000, 900, false, [⟨Side.ask, 5, 2, false⟩]⟩ = .ok r := by
    cases h : write_l2_batch ⟨1000, 900, false, [⟨Side.ask, 5, 2, false⟩]⟩ with
    | ok r => exact ⟨r, rfl⟩
    | error e =>
      have hsome : (write_l2_batch
          ⟨1000, 900, false, [⟨Side.ask, 5, 2, false⟩]⟩).toOption.isSome
          = true := by decide
      rw [h] at hsome
      simp [Except.toOption] at hsome
  have h7 := (c7_seek_time [] [⟨1000, 900, false, [⟨Side.ask, 5, 2, false⟩]⟩]
    [r] [⟨1000, 0⟩] 500
    (List.Forall₂.cons hr List.Forall₂.nil) rfl
    (by
      intro i hi
      have hi0 : i = 0 := by simpa using hi
      subst hi0
      simp)
    (by
      intro i j hij hj
      have hj0 : j = 0 := by simpa using hj
      have hi0 : i = 0 := by omega
      subst hi0; subst hj0
      exact le_refl _)).2.2
  have hidx : bisect_left (([⟨1000, 0⟩] : List IndexEntry).map
      IndexEntry.ts_recv_ns) 500 = 0 := by decide
  rw [hidx] at h7
  exact ⟨r, hr, by simpa using h7⟩

/-! ## L2 batcher: `mm_bt/ingest/l2_batcher.py`

The generator `iter_l2_batches` is embedded as a state machine: `BState`
holds the generator's local variables together with the batches yielded so
far (`out`) and the quarantine sink's records (`sink`); a raised exception
becomes `.error` carrying the state at the raise.  The quantizer is
abstracted as a pair of functions returning `Except String Int`
(`quantize_price` / `quantize_amount` either return an int or raise a
`QuantizationError`); interpolated parts of error messages are abstracted
to their static prefixes. -/

inductive FailurePolicy
  | hard_fail
  | quarantine
  deriving DecidableEq, Repr

inductive QuarantineAction
  | halt
  | skip_row
  | skip_batch
  deriving DecidableEq, Repr

/-- A row of the Tardis CSV stream (`mm_bt/io/tardis_csv.py`, `L2Row`);
the decimal fields stay as strings, exactly as the batcher receives them. -/
structure BRow where
  exchange : String
  symbol : String
  timestamp_us : Int
  local_timestamp_us : Int
  is_snapshot : Bool
  side : Side
  price : String
  amount : String
  line_number : Int
  source : String
  deriving DecidableEq, Repr

/-- `QuarantineRecord` (`mm_bt/ingest/quarantine.py`). -/
structure QRecord where
  reason : String
  source : String
  line_number : Int
  payload : Option BRow
  deriving DecidableEq, Repr

/-- The generator's local variables, plus the batches yielded so far and
the quarantine sink contents. -/
structure BState where
  prev_local_ts : Option Int
  prev_is_snapshot : Bool
  expected_exchange : Option String
  expected_symbol : Option String
  last_source : Option String
  batch_local_ts : Option Int
  batch_is_snapshot : Option Bool
  batch_resets_book : Option Bool
  batch_ts_exch_us : Option Int
  updates : List L2Update
  skip_batch : Bool
  out : List L2Batch
  sink : List QRecord
  deriving DecidableEq, Repr

/-- Embeds `record_quarantine`: append the record only under
`FailurePolicy.QUARANTINE` with a sink present. -/
def record_quarantine (policy : FailurePolicy) (sinkPresent : Bool)
    (sink : List QRecord) (rec : QRecord) : List QRecord :=
  if policy = FailurePolicy.quarantine ∧ sinkPresent = true
  then sink ++ [rec] else sink

/-- `_handle_error` re-raises exactly when the policy is `HARD_FAIL` or the
quarantine action is `HALT`. -/
def handleRaises : FailurePolicy → QuarantineAction → Bool
  | .hard_fail, _ => true
  | _, .halt => true
  | _, _ => false

/-- `source or row.source`: the batcher's `source` argument when non-empty,
else the row's own source. -/
def rowSrc (gsource : String) (r : BRow) : String :=
  if gsource = "" then r.source else gsource

/-- The `except QuantizationError` handler of the loop body: quarantine the
row and apply the action. -/
def quantFail (policy : FailurePolicy) (action : QuarantineAction)
    (sinkPresent : Bool) (src m : String) (r : BRow) (st : BState) :
    Except (BState × BTError) BState :=
  if handleRaises policy action then
    .error ({ st with sink := (record_quarantine policy sinkPresent st.sink
      ⟨m, src, r.line_number, some r⟩) }, .quantization m)
  else if action = QuarantineAction.skip_row then
    .ok { st with
      sink := (record_quarantine policy sinkPresent st.sink
        ⟨m, src, r.line_number, some r⟩),
      prev_local_ts := some r.local_timestamp_us }
  else
    .ok { st with
      sink := (record_quarantine policy sinkPresent st.sink
        ⟨m, src, r.line_number, some r⟩),
      skip_batch := true, updates := [],
      batch_ts_exch_us := none,
      prev_local_ts := some r.local_timestamp_us }

/-- Quantization block of the loop body (the `try/except QuantizationError`
around `quantize_price` / `quantize_amount` and the row append that follows):
on success append the update, record the exchange timestamp and advance
`prev_local_ts`; on failure quarantine the row and apply the action. -/
def stepF (policy : FailurePolicy) (action : QuarantineAction)
    (sinkPresent : Bool) (src : String)
    (qp qa : String → Except String Int) (r : BRow) (st : BState) :
    Except (BState × BTError) BState :=
  match qp r.price with
  | .error m => quantFail policy action sinkPresent src m r st
  | .ok price_ticks =>
    match qa r.amount with
    | .error m => quantFail policy action sinkPresent src m r st
    | .ok amount_lots =>
      .ok { st with
        updates := (st.updates
          ++ [⟨r.side, price_ticks, amount_lots, r.is_snapshot⟩]),
        batch_ts_exch_us := some r.timestamp_us,
        prev_local_ts := some r.local_timestamp_us }

/-- Mixed-`is_snapshot` block: a row whose snapshot flag differs from the
current batch's is quarantined and the action applied. -/
def stepE (policy : FailurePolicy) (action : QuarantineAction)
    (sinkPresent : Bool) (src : String)
    (qp qa : String → Except String Int) (r : BRow) (st : BState) :
    Except (BState × BTError) BState :=
  match st.batch_is_snapshot with
  | none => stepF policy action sinkPresent src qp qa r st
  | some bs =>
    if r.is_snapshot = bs then stepF policy action sinkPresent src qp qa r st
    else
      if handleRaises policy action then
        .error ({ st with sink := (record_quarantine policy sinkPresent
          st.sink ⟨"mixed is_snapshot values within a local_timestamp batch",
          src, r.line_number, some r⟩) },
          .schema "mixed is_snapshot values within a local_timestamp batch")
      else if action = QuarantineAction.skip_row then
        .ok { st with
          sink := (record_quarantine policy sinkPresent
            st.sink
            ⟨"mixed is_snapshot values within a local_timestamp batch",
            src, r.line_number, some r⟩),
          prev_local_ts := some r.local_timestamp_us }
      else
        .ok { st with
          sink := (record_quarantine policy sinkPresent
            st.sink
            ⟨"mixed is_snapshot values within a local_timestamp batch",
            src, r.line_number, some r⟩),
          skip_batch := true, updates := [],
          batch_ts_exch_us := none,
          prev_local_ts := some r.local_timestamp_us }

/-- Batch-boundary block: start the batch on its first row; on a new local
timestamp flush the accumulated batch (yielding it when it has updates and
an exchange timestamp, quarantining when the exchange timestamp is missing)
and start the next batch. -/
def startNext (policy : FailurePolicy) (action : QuarantineAction)
    (sinkPresent : Bool) (src : String)
    (qp qa : String → Except String Int) (r : BRow) (s : BState) :
    Except (BState × BTError) BState :=
  stepE policy action sinkPresent src qp qa r
    { s with
      batch_local_ts := some r.local_timestamp_us,
      batch_is_snapshot := some r.is_snapshot,
      batch_resets_book := some (!s.prev_is_snapshot && r.is_snapshot),
      batch_ts_exch_us := none, updates := [] }

/-- Batch-boundary block proper: start the batch on its first row; on a new
local timestamp flush the accumulated batch and start the next one. -/
def stepD (policy : FailurePolicy) (action : QuarantineAction)
    (sinkPresent : Bool) (src : String)
    (qp qa : String → Except String Int) (r : BRow) (st : BState) :
    Except (BState × BTError) BState :=
  match st.batch_local_ts with
  | none =>
    stepE policy action sinkPresent src qp qa r
      { st with
        batch_local_ts := some r.local_timestamp_us,
        batch_is_snapshot := some r.is_snapshot,
        batch_resets_book := some (!st.prev_is_snapshot && r.is_snapshot) }
  | some b =>
    if r.local_timestamp_us = b then
      stepE policy action sinkPresent src qp qa r st
    else
      if st.updates = [] then startNext policy action sinkPresent src qp qa r st
      else
        match st.batch_ts_exch_us with
        | some tex =>
          startNext policy action sinkPresent src qp qa r
            { st with
              out := (st.out ++ [⟨b * 1000, tex * 1000,
              st.batch_resets_book.getD false, st.updates⟩]),
              prev_is_snapshot := st.batch_is_snapshot.getD false }
        | none =>
          if handleRaises policy action then
            .error ({ st with sink := (record_quarantine policy sinkPresent
              st.sink ⟨"missing exchange timestamp in batch", src,
              r.line_number, some r⟩) },
              .schema "missing exchange timestamp in batch")
          else
            startNext policy action sinkPresent src qp qa r
              { st with
                sink := (record_quarantine policy sinkPresent
                  st.sink ⟨"missing exchange timestamp in batch", src,
                  r.line_number, some r⟩),
                updates := [] }

/-- Skip-batch resolution block: while `skip_batch` is set, rows sharing the
skipped batch's local timestamp are dropped (advancing `prev_local_ts`);
the first row of a later timestamp clears the skip state. -/
def stepC (policy : FailurePolicy) (action : QuarantineAction)
    (sinkPresent : Bool) (src : String)
    (qp qa : String → Except String Int) (r : BRow) (st : BState) :
    Except (BState × BTError) BState :=
  if st.skip_batch then
    if st.batch_local_ts = some r.local_timestamp_us then
      .ok { st with prev_local_ts := some r.local_timestamp_us }
    else
      stepD policy action sinkPresent src qp qa r
        { st with
          skip_batch := false, batch_local_ts := none,
          batch_is_snapshot := none, batch_resets_book := none,
          batch_ts_exch_us := none, updates := [] }
  else stepD policy action sinkPresent src qp qa r st

/-- Ordering block: a row whose local timestamp decreases below
`prev_local_ts` is quarantined; under `SKIP_ROW` or `SKIP_BATCH` the loop
just continues (in particular `prev_local_ts` is left unchanged). -/
def stepB (policy : FailurePolicy) (action : QuarantineAction)
    (sinkPresent : Bool) (src : String)
    (qp qa : String → Except String Int) (r : BRow) (st : BState) :
    Except (BState × BTError) BState :=
  match st.prev_local_ts with
  | some p =>
    if r.local_timestamp_us < p then
      if handleRaises policy action then
        .error ({ st with sink := (record_quarantine policy sinkPresent
          st.sink ⟨"local_timestamp decreased", src, r.line_number,
          some r⟩) }, .ordering "local_timestamp decreased")
      else
        .ok { st with sink := (record_quarantine policy sinkPresent
          st.sink ⟨"local_timestamp decreased", src, r.line_number,
          some r⟩) }
    else stepC policy action sinkPresent src qp qa r st
  | none => stepC policy action sinkPresent src qp qa r st

/-- Exchange/symbol block: the first row fixes the expected exchange and
symbol; a later row for another instrument is quarantined and the action
applied. -/
def stepA (policy : FailurePolicy) (action : QuarantineAction)
    (sinkPresent : Bool) (src : String)
    (qp qa : String → Except String Int) (r : BRow) (st : BState) :
    Except (BState × BTError) BState :=
  match st.expected_exchange with
  | none =>
    stepB policy action sinkPresent src qp qa r
      { st with
        expected_exchange := some r.exchange,
        expected_symbol := some r.symbol }
  | some ex =>
    if r.exchange = ex ∧ st.expected_symbol = some r.symbol then
      stepB policy action sinkPresent src qp qa r st
    else
      if handleRaises policy action then
        .error ({ st with sink := (record_quarantine policy sinkPresent
          st.sink ⟨"mixed exchange/symbol in stream", src, r.line_number,
          some r⟩) }, .schema "mixed exchange/symbol in stream")
      else if action = QuarantineAction.skip_row then
        .ok { st with
          sink := (record_quarantine policy sinkPresent st.sink
            ⟨"mixed exchange/symbol in stream", src, r.line_number, some r⟩),
          prev_local_ts := some r.local_timestamp_us }
      else
        .ok { st with
          sink := (record_quarantine policy sinkPresent st.sink
            ⟨"mixed exchange/symbol in stream", src, r.line_number, some r⟩),
          batch_local_ts := (match st.batch_local_ts with
            | none => some r.local_timestamp_us
            | some b => some b),
          skip_batch := true, updates := [], batch_ts_exch_us := none,
          prev_local_ts := some r.local_timestamp_us }

/-- One iteration of the batcher's `for row in rows` loop. -/
def stepRow (policy : FailurePolicy) (action : QuarantineAction)
    (sinkPresent : Bool) (gsource : String)
    (qp qa : String → Except String Int) (st : BState) (r : BRow) :
    Except (BState × BTError) BState :=
  stepA policy action sinkPresent (rowSrc gsource r) qp qa r
    { st with last_source := some (rowSrc gsource r) }

/-- The loop over all rows. -/
def runRows (policy : FailurePolicy) (action : QuarantineAction)
    (sinkPresent : Bool) (gsource : String)
    (qp qa : String → Except String Int) :
    BState → List BRow → Except (BState × BTError) BState
  | st, [] => .ok st
  | st, r :: rs =>
    match stepRow policy action sinkPresent gsource qp qa st r with
    | .error e => .error e
    | .ok st2 => runRows policy action sinkPresent gsource qp qa st2 rs

/-- The generator's epilogue: flush the pending batch, quarantining when it
lacks an exchange timestamp. -/
def finishB (policy : FailurePolicy) (action : QuarantineAction)
    (sinkPresent : Bool) (gsource : String) (st : BState) :
    Except (BState × BTError) BState :=
  match st.batch_local_ts with
  | none => .ok st
  | some b =>
    if st.updates = [] then .ok st
    else
      match st.batch_ts_exch_us with
      | none =>
        if handleRaises policy action then
          .error ({ st with sink := (record_quarantine policy sinkPresent
            st.sink ⟨"missing exchange timestamp in batch",
            if gsource = "" then st.last_source.getD "" else gsource,
            0, none⟩) }, .schema "missing exchange timestamp in batch")
        else
          .ok { st with sink := (record_quarantine policy sinkPresent
            st.sink ⟨"missing exchange timestamp in batch",
            if gsource = "" then st.last_source.getD "" else gsource,
            0, none⟩) }
      | some tex =>
        .ok { st with
          out := (st.out ++ [⟨b * 1000, tex * 1000,
          st.batch_resets_book.getD false, st.updates⟩]),
          prev_is_snapshot := st.batch_is_snapshot.getD false }

/-- The generator's initial local state. -/
def bInit : BState :=
  ⟨none, false, none, none, none, none, none, none, none, [], false, [], []⟩

/-- Embeds the whole generator `mm_bt.ingest.l2_batcher.iter_l2_batches`:
run every row through the loop body from the initial state, then flush. -/
def batcher_iter (policy : FailurePolicy) (action : QuarantineAction)
    (sinkPresent : Bool) (gsource : String)
    (qp qa : String → Except String Int) (rows : List BRow) :
    Except (BState × BTError) BState :=
  match runRows policy action sinkPresent gsource qp qa bInit rows with
  | .error e => .error e
  | .ok st => finishB policy action sinkPresent gsource st

/-- The state when the generator stops: the final state on normal
termination, the state at the raise otherwise (already-yielded batches and
sink records stand in either case). -/
def finalSt : Except (BState × BTError) BState → BState
  | .ok st => st
  | .error (st, _) => st

/-- A batch's snapshot flag, as recovered from its updates (within one
emitted batch every update carries the batch's `is_snapshot`). -/
def bSnap (b : L2Batch) : Bool :=
  ((b.updates.head?).map L2Update.is_snapshot).getD false

/-- `resetsChain p l q`: walking the emitted batches `l` from a last-emitted
snapshot flag `p`, each batch's `resets_book` equals "this batch is a
snapshot batch and the previous one was not", and `q` is the flag of the
last batch (or `p` when `l` is empty). -/
def resetsChain : Bool → List L2Batch → Bool → Prop
  | p, [], q => q = p
  | p, b :: rest, q =>
    b.resets_book = (!p && bSnap b) ∧ resetsChain (bSnap b) rest q

/-- Every emitted batch has at least one update and its updates agree on
the snapshot flag. -/
def outUniform (l : List L2Batch) : Prop :=
  ∀ b ∈ l, b.updates ≠ [] ∧ ∀ u ∈ b.updates, u.is_snapshot = bSnap b

/-- The batcher's loop invariant: the emitted batches satisfy the
`resets_book` chain ending at `prev_is_snapshot`; they are uniform; the
pending `batch_resets_book` (when set next to a snapshot flag) was computed
from the current `prev_is_snapshot`; pending updates belong to a started,
unskipped batch with a consistent snapshot flag; and a started unskipped
batch has its snapshot and resets flags set. -/
def BInv (st : BState) : Prop :=
  resetsChain false st.out st.prev_is_snapshot ∧
  outUniform st.out ∧
  (∀ bs rb, st.batch_is_snapshot = some bs →
    st.batch_resets_book = some rb →
    rb = (!st.prev_is_snapshot && bs)) ∧
  (st.updates ≠ [] → st.batch_local_ts.isSome = true ∧
    st.skip_batch = false ∧ ∃ bs, st.batch_is_snapshot = some bs ∧
    ∀ u ∈ st.updates, u.is_snapshot = bs) ∧
  (st.skip_batch = false → st.batch_local_ts.isSome = true →
    st.batch_is_snapshot.isSome = true ∧ st.batch_resets_book.isSome = true)

theorem resetsChain_append (p q : Bool) (l : List L2Batch) (b : L2Batch)
    (h : resetsChain p l q) (hb : b.resets_book = (!q && bSnap b)) :
    resetsChain p (l ++ [b]) (bSnap b) := by
  induction l generalizing p with
  | nil =>
    simp only [resetsChain] at h
    subst h
    exact ⟨hb, rfl⟩
  | cons c rest ih =>
    obtain ⟨h1, h2⟩ := h
    exact ⟨h1, ih _ h2⟩

theorem outUniform_append (l : List L2Batch) (b : L2Batch)
    (h : outUniform l) (h1 : b.updates ≠ [])
    (h2 : ∀ u ∈ b.updates, u.is_snapshot = bSnap b) :
    outUniform (l ++ [b]) := by
  intro c hc
  rcases List.mem_append.mp hc with hc | hc
  · exact h c hc
  · rcases List.mem_singleton.mp hc with rfl
    exact ⟨h1, h2⟩

theorem quantFail_inv (policy : FailurePolicy) (action : QuarantineAction)
    (sinkPresent : Bool) (src m : String) (r : BRow) (st : BState)
    (hinv : BInv st) :
    BInv (finalSt (quantFail policy action sinkPresent src m r st)) := by
  obtain ⟨h1, h2, h3, h4, h5⟩ := hinv
  rw [quantFail]
  split_ifs with hr ha
  · exact ⟨h1, h2, h3, h4, h5⟩
  · exact ⟨h1, h2, h3, h4, h5⟩
  · exact ⟨h1, h2, h3, fun h => absurd rfl h, fun h => Bool.noConfusion h⟩

theorem stepF_inv (policy : FailurePolicy) (action : QuarantineAction)
    (sinkPresent : Bool) (src : String)
    (qp qa : String → Except String Int) (r : BRow) (st : BState)
    (hinv : BInv st) (hskip : st.skip_batch = false)
    (hloc : st.batch_local_ts.isSome = true)
    (hbs : ∀ bs, st.batch_is_snapshot = some bs → r.is_snapshot = bs)
    (hsome : st.batch_is_snapshot.isSome = true) :
    BInv (finalSt (stepF policy action sinkPresent src qp qa r st)) := by
  obtain ⟨h1, h2, h3, h4, h5⟩ := hinv
  rw [stepF]
  cases hqp : qp r.price with
  | error m => exact quantFail_inv _ _ _ _ _ _ _ ⟨h1, h2, h3, h4, h5⟩
  | ok price_ticks =>
    cases hqa : qa r.amount with
    | error m => exact quantFail_inv _ _ _ _ _ _ _ ⟨h1, h2, h3, h4, h5⟩
    | ok amount_lots =>
      refine ⟨h1, h2, h3, ?_, h5⟩
      intro _
      obtain ⟨bs, hbseq⟩ := Option.isSome_iff_exists.mp hsome
      refine ⟨hloc, hskip, bs, hbseq, ?_⟩
      intro u hu
      rcases List.mem_append.mp hu with hu | hu
      · have hne : st.updates ≠ [] := by
          intro he
          rw [he] at hu
          simp at hu
        obtain ⟨-, -, bs2, hbs2, hall⟩ := h4 hne
        rw [hbseq] at hbs2
        injection hbs2 with hbs2
        rw [hbs2]
        exact hall u hu
      · rcases List.mem_singleton.mp hu with rfl
        exact hbs bs hbseq

theorem stepE_inv (policy : FailurePolicy) (action : QuarantineAction)
    (sinkPresent : Bool) (src : String)
    (qp qa : String → Except String Int) (r : BRow) (st : BState)
    (hinv : BInv st) (hskip : st.skip_batch = false)
    (hloc : st.batch_local_ts.isSome = true)
    (hsome : st.batch_is_snapshot.isSome = true) :
    BInv (finalSt (stepE policy action sinkPresent src qp qa r st)) := by
  obtain ⟨h1, h2, h3, h4, h5⟩ := hinv
  rw [stepE]
  cases hb : st.batch_is_snapshot with
  | none => rw [hb] at hsome; simp at hsome
  | some bs =>
    simp only []
    by_cases hrs : r.is_snapshot = bs
    · rw [if_pos hrs]
      exact stepF_inv _ _ _ _ _ _ _ _ ⟨h1, h2, h3, h4, h5⟩ hskip hloc
        (by
          intro bs2 hbs2
          rw [hb] at hbs2
          injection hbs2 with hbs2
          rw [← hbs2]
          exact hrs)
        (by rw [hb]; rfl)
    · rw [if_neg hrs]
      rw [hb] at h3 h4 h5
      split_ifs with hr ha
      · exact ⟨h1, h2, h3, h4, h5⟩
      · exact ⟨h1, h2, h3, h4, h5⟩
      · exact ⟨h1, h2, h3, fun h => absurd rfl h,
          fun h => Bool.noConfusion h⟩

theorem bSnap_of_uniform (t1 t2 : Int) (rb : Bool) (us : List L2Update)
    (bs : Bool) (hne : us ≠ []) (hall : ∀ u ∈ us, u.is_snapshot = bs) :
    bSnap ⟨t1, t2, rb, us⟩ = bs := by
  cases us with
  | nil => exact absurd rfl hne
  | cons u t => exact hall u (List.mem_cons_self u t)

theorem startNext_inv (policy : FailurePolicy) (action : QuarantineAction)
    (sinkPresent : Bool) (src : String)
    (qp qa : String → Except String Int) (r : BRow) (s : BState)
    (h1 : resetsChain false s.out s.prev_is_snapshot)
    (h2 : outUniform s.out) (hskip : s.skip_batch = false) :
    BInv (finalSt (startNext policy action sinkPresent src qp qa r s)) := by
  rw [startNext]
  refine stepE_inv _ _ _ _ _ _ _ _ ⟨h1, h2, ?_, ?_, ?_⟩ hskip rfl rfl
  · intro bs rb hbs hrb
    injection hbs with hbs
    injection hrb with hrb
    rw [← hbs, ← hrb]
  · exact fun h => absurd rfl h
  · exact fun _ _ => ⟨rfl, rfl⟩

theorem stepD_inv (policy : FailurePolicy) (action : QuarantineAction)
    (sinkPresent : Bool) (src : String)
    (qp qa : String → Except String Int) (r : BRow) (st : BState)
    (hinv : BInv st) (hskip : st.skip_batch = false) :
    BInv (finalSt (stepD policy action sinkPresent src qp qa r st)) := by
  obtain ⟨h1, h2, h3, h4, h5⟩ := hinv
  rw [stepD]
  cases hb : st.batch_local_ts with
  | none =>
    simp only []
    refine stepE_inv _ _ _ _ _ _ _ _ ⟨h1, h2, ?_, ?_, ?_⟩ hskip rfl rfl
    · intro bs rb hbs hrb
      injection hbs with hbs
      injection hrb with hrb
      rw [← hbs, ← hrb]
    · intro h
      have hl := (h4 h).1
      rw [hb] at hl
      simp at hl
    · exact fun _ _ => ⟨rfl, rfl⟩
  | some b =>
    simp only []
    by_cases hsame : r.local_timestamp_us = b
    · rw [if_pos hsame]
      exact stepE_inv _ _ _ _ _ _ _ _ ⟨h1, h2, h3, h4, h5⟩ hskip
        (by rw [hb]; rfl) (h5 hskip (by rw [hb]; rfl)).1
    · rw [if_neg hsame]
      by_cases hup : st.updates = []
      · rw [if_pos hup]
        exact startNext_inv _ _ _ _ _ _ _ _ h1 h2 hskip
      · rw [if_neg hup]
        obtain ⟨hlocS, -, bs, hbsS, hall⟩ := h4 hup
        obtain ⟨-, hrbS⟩ := h5 hskip hlocS
        obtain ⟨rb, hrbeq⟩ := Option.isSome_iff_exists.mp hrbS
        have hrbval : rb = (!st.prev_is_snapshot && bs) := h3 bs rb hbsS hrbeq
        cases ht : st.batch_ts_exch_us with
        | some tex =>
          simp only []
          have hbsnap : bSnap ⟨b * 1000, tex * 1000,
              st.batch_resets_book.getD false, st.updates⟩ = bs :=
            bSnap_of_uniform _ _ _ _ _ hup hall
          refine startNext_inv _ _ _ _ _ _ _ _ ?_ ?_ hskip
          · show resetsChain false (st.out ++ [_])
              (st.batch_is_snapshot.getD false)
            rw [hbsS, Option.getD_some]
            have hB : (⟨b * 1000, tex * 1000,
                st.batch_resets_book.getD false, st.updates⟩ :
                  L2Batch).resets_book
                = (!st.prev_is_snapshot && bSnap ⟨b * 1000, tex * 1000,
                  st.batch_resets_book.getD false, st.updates⟩) := by
              show st.batch_resets_book.getD false = _
              rw [hbsnap, hrbeq, Option.getD_some]
              exact hrbval
            have hc := resetsChain_append _ _ st.out _ h1 hB
            rwa [hbsnap] at hc
          · refine outUniform_append _ _ h2 hup ?_
            intro u hu
            rw [hbsnap]
            exact hall u hu
        | none =>
          simp only []
          rw [hb] at h4 h5
          split_ifs with hr
          · exact ⟨h1, h2, h3, h4, h5⟩
          · exact startNext_inv _ _ _ _ _ _ _ _ h1 h2 hskip

theorem stepC_inv (policy : FailurePolicy) (action : QuarantineAction)
    (sinkPresent : Bool) (src : String)
    (qp qa : String → Except String Int) (r : BRow) (st : BState)
    (hinv : BInv st) :
    BInv (finalSt (stepC policy action sinkPresent src qp qa r st)) := by
  obtain ⟨h1, h2, h3, h4, h5⟩ := hinv
  rw [stepC]
  cases hsb : st.skip_batch with
  | true =>
    rw [if_pos rfl]
    by_cases hbt : st.batch_local_ts = some r.local_timestamp_us
    · rw [if_pos hbt]
      refine ⟨h1, h2, h3, ?_, fun hl => Bool.noConfusion hl⟩
      intro h
      have hc := (h4 h).2.1
      rw [hsb] at hc
      exact Bool.noConfusion hc
    · rw [if_neg hbt]
      refine stepD_inv _ _ _ _ _ _ _ _ ⟨h1, h2, ?_, ?_, ?_⟩ rfl
      · exact fun bs rb hbs => Option.noConfusion hbs
      · exact fun h => absurd rfl h
      · exact fun _ hl => Bool.noConfusion hl
  | false =>
    rw [if_neg Bool.false_ne_true]
    exact stepD_inv _ _ _ _ _ _ _ _ ⟨h1, h2, h3, h4, h5⟩ hsb

theorem stepB_inv (policy : FailurePolicy) (action : QuarantineAction)
    (sinkPresent : Bool) (src : String)
    (qp qa : String → Except String Int) (r : BRow) (st : BState)
    (hinv : BInv st) :
    BInv (finalSt (stepB policy action sinkPresent src qp qa r st)) := by
  obtain ⟨h1, h2, h3, h4, h5⟩ := hinv
  rw [stepB]
  cases hp : st.prev_local_ts with
  | none => exact stepC_inv _ _ _ _ _ _ _ _ ⟨h1, h2, h3, h4, h5⟩
  | some p =>
    simp only []
    by_cases hlt : r.local_timestamp_us < p
    · rw [if_pos hlt]
      split_ifs with hr
      · exact ⟨h1, h2, h3, h4, h5⟩
      · exact ⟨h1, h2, h3, h4, h5⟩
    · rw [if_neg hlt]
      exact stepC_inv _ _ _ _ _ _ _ _ ⟨h1, h2, h3, h4, h5⟩

theorem stepA_inv (policy : FailurePolicy) (action : QuarantineAction)
    (sinkPresent : Bool) (src : String)
    (qp qa : String → Except String Int) (r : BRow) (st : BState)
    (hinv : BInv st) :
    BInv (finalSt (stepA policy action sinkPresent src qp qa r st)) := by
  obtain ⟨h1, h2, h3, h4, h5⟩ := hinv
  rw [stepA]
  cases hx : st.expected_exchange with
  | none => exact stepB_inv _ _ _ _ _ _ _ _ ⟨h1, h2, h3, h4, h5⟩
  | some ex =>
    simp only []
    by_cases heq : r.exchange = ex ∧ st.expected_symbol = some r.symbol
    · rw [if_pos heq]
      exact stepB_inv _ _ _ _ _ _ _ _ ⟨h1, h2, h3, h4, h5⟩
    · rw [if_neg heq]
      split_ifs with hr ha
      · exact ⟨h1, h2, h3, h4, h5⟩
      · exact ⟨h1, h2, h3, h4, h5⟩
      · exact ⟨h1, h2, h3, fun h => absurd rfl h,
          fun h => Bool.noConfusion h⟩

theorem stepRow_inv (policy : FailurePolicy) (action : QuarantineAction)
    (sinkPresent : Bool) (gsource : String)
    (qp qa : String → Except String Int) (st : BState) (r : BRow)
    (hinv : BInv st) :
    BInv (finalSt (stepRow policy action sinkPresent gsource qp qa st r)) := by
  obtain ⟨h1, h2, h3, h4, h5⟩ := hinv
  rw [stepRow]
  exact stepA_inv _ _ _ _ _ _ _ _ ⟨h1, h2, h3, h4, h5⟩

theorem runRows_inv (policy : FailurePolicy) (action : QuarantineAction)
    (sinkPresent : Bool) (gsource : String)
    (qp qa : String → Except String Int) (rows : List BRow) (st : BState)
    (hinv : BInv st) :
    BInv (finalSt (runRows policy action sinkPresent gsource qp qa st rows)) := by
  induction rows generalizing st with
  | nil => exact hinv
  | cons r rs ih =>
    rw [runRows]
    cases h : stepRow policy action sinkPresent gsource qp qa st r with
    | error e =>
      have := stepRow_inv policy action sinkPresent gsource qp qa st r hinv
      rwa [h] at this
    | ok st2 =>
      have := stepRow_inv policy action sinkPresent gsource qp qa st r hinv
      rw [h] at this
      exact ih st2 this

theorem finishB_out (policy : FailurePolicy) (action : QuarantineAction)
    (sinkPresent : Bool) (gsource : String) (st : BState)
    (hinv : BInv st) :
    resetsChain false
      (finalSt (finishB policy action sinkPresent gsource st)).out
      (finalSt (finishB policy action sinkPresent gsource st)).prev_is_snapshot
    ∧ outUniform
      (finalSt (finishB policy action sinkPresent gsource st)).out := by
  obtain ⟨h1, h2, h3, h4, h5⟩ := hinv
  rw [finishB]
  cases hb : st.batch_local_ts with
  | none => exact ⟨h1, h2⟩
  | some b =>
    simp only []
    by_cases hup : st.updates = []
    · rw [if_pos hup]
      exact ⟨h1, h2⟩
    · rw [if_neg hup]
      obtain ⟨hlocS, hskipS, bs, hbsS, hall⟩ := h4 hup
      cases ht : st.batch_ts_exch_us with
      | none =>
        simp only []
        split_ifs <;> exact ⟨h1, h2⟩
      | some tex =>
        simp only []
        obtain ⟨-, hrbS⟩ := h5 hskipS hlocS
        obtain ⟨rb, hrbeq⟩ := Option.isSome_iff_exists.mp hrbS
        have hrbval : rb = (!st.prev_is_snapshot && bs) := h3 bs rb hbsS hrbeq
        have hbsnap : bSnap ⟨b * 1000, tex * 1000,
            st.batch_resets_book.getD false, st.updates⟩ = bs :=
          bSnap_of_uniform _ _ _ _ _ hup hall
        constructor
        · show resetsChain false (st.out ++ [_])
            (st.batch_is_snapshot.getD false)
          rw [hbsS, Option.getD_some]
          have hB : (⟨b * 1000, tex * 1000,
              st.batch_resets_book.getD false, st.updates⟩ :
                L2Batch).resets_book
              = (!st.prev_is_snapshot && bSnap ⟨b * 1000, tex * 1000,
                st.batch_resets_book.getD false, st.updates⟩) := by
            show st.batch_resets_book.getD false = _
            rw [hbsnap, hrbeq, Option.getD_some]
            exact hrbval
          have hc := resetsChain_append _ _ st.out _ h1 hB
          rwa [hbsnap] at hc
        · refine outUniform_append _ _ h2 hup ?_
          intro u hu
          rw [hbsnap]
          exact hall u hu

theorem bInit_inv : BInv bInit := by
  refine ⟨rfl, ?_, ?_, ?_, ?_⟩
  · intro b hb
    simp [bInit] at hb
  · exact fun bs rb hbs => Option.noConfusion hbs
  · exact fun h => absurd rfl h
  · exact fun _ hl => Bool.noConfusion hl

theorem resetsChain_spec (p q : Bool) (l : List L2Batch)
    (h : resetsChain p l q) :
    (l ≠ [] → (l.getD 0 ⟨0, 0, false, []⟩).resets_book
      = (!p && bSnap (l.getD 0 ⟨0, 0, false, []⟩))) ∧
    (∀ i, i + 1 < l.length →
      (l.getD (i + 1) ⟨0, 0, false, []⟩).resets_book
        = (!(bSnap (l.getD i ⟨0, 0, false, []⟩))
          && bSnap (l.getD (i + 1) ⟨0, 0, false, []⟩))) := by
  induction l generalizing p with
  | nil => exact ⟨fun hne => absurd rfl hne, fun i hi => by simp at hi⟩
  | cons b rest ih =>
    obtain ⟨hb, hrest⟩ := h
    obtain ⟨ih1, ih2⟩ := ih _ hrest
    constructor
    · intro _
      simpa using hb
    · intro i hi
      cases i with
      | zero =>
        simp only [List.getD_cons_succ, List.getD_cons_zero]
        have hne : rest ≠ [] := by
          intro he
          rw [he] at hi
          simp at hi
        exact ih1 hne
      | succ j =>
        simp only [List.getD_cons_succ]
        exact ih2 j (by simpa using hi)

/-- The batches the batcher has yielded when it stops (normally or at a
raise), in emission order. -/
def batcherOut (policy : FailurePolicy) (action : QuarantineAction)
    (sinkPresent : Bool) (gsource : String)
    (qp qa : String → Except String Int) (rows : List BRow) :
    List L2Batch :=
  (finalSt (batcher_iter policy action sinkPresent gsource qp qa rows)).out

theorem batcherOut_chain (policy : FailurePolicy) (action : QuarantineAction)
    (sinkPresent : Bool) (gsource : String)
    (qp qa : String → Except String Int) (rows : List BRow) :
    resetsChain false
      (batcherOut policy action sinkPresent gsource qp qa rows)
      (finalSt (batcher_iter policy action sinkPresent gsource qp qa
        rows)).prev_is_snapshot ∧
    outUniform (batcherOut policy action sinkPresent gsource qp qa rows) := by
  have hrun := runRows_inv policy action sinkPresent gsource qp qa rows
    bInit bInit_inv
  rw [batcherOut, batcher_iter]
  cases h : runRows policy action sinkPresent gsource qp qa bInit rows with
  | error e =>
    rw [h] at hrun
    exact ⟨hrun.1, hrun.2.1⟩
  | ok st =>
    rw [h] at hrun
    exact finishB_out policy action sinkPresent gsource st hrun

/-- C4: in every run of the batcher (any failure policy, quarantine action,
sink and quantizer), every emitted batch has updates that agree on one
snapshot flag (`bSnap`), and a batch's `resets_book` is true iff the batch
is a snapshot batch and the previously emitted batch was not: the first
emitted batch's `resets_book` equals its own snapshot flag (so the first
emitted snapshot batch resets the book), and each later batch's
`resets_book` equals "previous emitted batch non-snapshot AND this batch
snapshot" (in particular a snapshot batch right after an emitted snapshot
batch has `resets_book` false). -/
theorem c4_resets_book (policy : FailurePolicy) (action : QuarantineAction)
    (sinkPresent : Bool) (gsource : String)
    (qp qa : String → Except String Int) (rows : List BRow) :
    (∀ b ∈ batcherOut policy action sinkPresent gsource qp qa rows,
      b.updates ≠ [] ∧ ∀ u ∈ b.updates, u.is_snapshot = bSnap b) ∧
    (batcherOut policy action sinkPresent gsource qp qa rows ≠ [] →
      ((batcherOut policy action sinkPresent gsource qp qa rows).getD 0
        ⟨0, 0, false, []⟩).resets_book
      = bSnap ((batcherOut policy action sinkPresent gsource qp qa
        rows).getD 0 ⟨0, 0, false, []⟩)) ∧
    (∀ i, i + 1
        < (batcherOut policy action sinkPresent gsource qp qa rows).length →
      ((batcherOut policy action sinkPresent gsource qp qa rows).getD (i + 1)
        ⟨0, 0, false, []⟩).resets_book
      = (!(bSnap ((batcherOut policy action sinkPresent gsource qp qa
          rows).getD i ⟨0, 0, false, []⟩))
        && bSnap ((batcherOut policy action sinkPresent gsource qp qa
          rows).getD (i + 1) ⟨0, 0, false, []⟩))) := by
  obtain ⟨hchain, huni⟩ := batcherOut_chain policy action sinkPresent gsource
    qp qa rows
  obtain ⟨hhead, hpair⟩ := resetsChain_spec _ _ _ hchain
  refine ⟨huni, ?_, hpair⟩
  intro hne
  have := hhead hne
  simpa using this

/-- C5 counterexample: under `QUARANTINE`/`SKIP_ROW`, a row whose local
timestamp decreases (2000 then 1000) is quarantined and dropped, but
`prev_local_ts` is NOT advanced to the offending row's timestamp: it stays
at 2000 (the loop's ordering branch `continue`s without the assignment the
spec describes). -/
theorem c5_counterexample :
    (runRows FailurePolicy.quarantine QuarantineAction.skip_row true ""
        (fun _ => Except.ok 1) (fun _ => Except.ok 1) bInit
        [⟨"ex", "sym", 10, 2000, false, Side.bid, "1", "1", 1, "s"⟩,
          ⟨"ex", "sym", 11, 1000, false, Side.bid, "1", "1", 2,
            "s"⟩]).toOption.map
        (fun st => (st.prev_local_ts, st.sink.map QRecord.reason))
      = some (some 2000, ["local_timestamp decreased"]) ∧
    (runRows FailurePolicy.quarantine QuarantineAction.skip_row true ""
        (fun _ => Except.ok 1) (fun _ => Except.ok 1) bInit
        [⟨"ex", "sym", 10, 2000, false, Side.bid, "1", "1", 1, "s"⟩,
          ⟨"ex", "sym", 11, 1000, false, Side.bid, "1", "1", 2,
            "s"⟩]).toOption.map
        (fun st => st.prev_local_ts)
      ≠ some (some 1000) := by
  exact ⟨by decide, by decide⟩

/-- C5 (amended): under `FailurePolicy.QUARANTINE` with
`QuarantineAction.SKIP_ROW`, every violating row is quarantined (a
`{reason, source, line_number, payload}` record is appended to the sink),
dropped, and processing continues with `.ok`; `prev_local_ts` is advanced
to the offending row's `local_timestamp_us` for a mixed exchange/symbol
row, a mixed `is_snapshot` row and a quantization failure, but for a
decreasing local timestamp the row is skipped with `prev_local_ts` left
unchanged (it keeps the previous, larger value); all other state is
untouched. -/
theorem c5_skip_row (gsource : String) (qp qa : String → Except String Int)
    (st : BState) (r : BRow) :
    (∀ ex, st.expected_exchange = some ex →
      ¬(r.exchange = ex ∧ st.expected_symbol = some r.symbol) →
      stepRow FailurePolicy.quarantine QuarantineAction.skip_row true
          gsource qp qa st r
        = .ok { st with
            last_source := some (rowSrc gsource r),
            sink := (st.sink ++ [⟨"mixed exchange/symbol in stream",
              rowSrc gsource r, r.line_number, some r⟩]),
            prev_local_ts := some r.local_timestamp_us }) ∧
    (st.expected_exchange = some r.exchange →
      st.expected_symbol = some r.symbol →
      ∀ p, st.prev_local_ts = some p → r.local_timestamp_us < p →
      stepRow FailurePolicy.quarantine QuarantineAction.skip_row true
          gsource qp qa st r
        = .ok { st with
            last_source := some (rowSrc gsource r),
            sink := (st.sink ++ [⟨"local_timestamp decreased",
              rowSrc gsource r, r.line_number, some r⟩]) }) ∧
    (st.expected_exchange = some r.exchange →
      st.expected_symbol = some r.symbol →
      (∀ p, st.prev_local_ts = some p → p ≤ r.local_timestamp_us) →
      st.skip_batch = false →
      st.batch_local_ts = some r.local_timestamp_us →
      ∀ bs, st.batch_is_snapshot = some bs → ¬r.is_snapshot = bs →
      stepRow FailurePolicy.quarantine QuarantineAction.skip_row true
          gsource qp qa st r
        = .ok { st with
            last_source := some (rowSrc gsource r),
            sink := (st.sink
              ++ [⟨"mixed is_snapshot values within a local_timestamp batch",
              rowSrc gsource r, r.line_number, some r⟩]),
            prev_local_ts := some r.local_timestamp_us }) ∧
    (st.expected_exchange = some r.exchange →
      st.expected_symbol = some r.symbol →
      (∀ p, st.prev_local_ts = some p → p ≤ r.local_timestamp_us) →
      st.skip_batch = false →
      st.batch_local_ts = some r.local_timestamp_us →
      st.batch_is_snapshot = some r.is_snapshot →
      ∀ m, (qp r.price = .error m ∨
        (∃ pt, qp r.price = .ok pt ∧ qa r.amount = .error m)) →
      stepRow FailurePolicy.quarantine QuarantineAction.skip_row true
          gsource qp qa st r
        = .ok { st with
            last_source := some (rowSrc gsource r),
            sink := (st.sink ++ [⟨m, rowSrc gsource r, r.line_number,
              some r⟩]),
            prev_local_ts := some r.local_timestamp_us }) := by
  refine ⟨?_, ?_, ?_, ?_⟩
  · intro ex hex hne
    rw [stepRow, stepA.eq_def]
    simp only []
    rw [hex]
    simp only []
    rw [if_neg hne]
    simp [handleRaises, record_quarantine]
  · intro hex hsym p hp hlt
    rw [stepRow, stepA.eq_def]
    simp only []
    rw [hex]
    simp only []
    rw [if_pos ⟨trivial, hsym⟩, stepB.eq_def]
    simp only []
    rw [hp]
    simp only []
    rw [if_pos hlt]
    simp [handleRaises, record_quarantine]
  · intro hex hsym hple hsb hbt bs hbs hneq
    rw [stepRow, stepA.eq_def]
    simp only []
    rw [hex]
    simp only []
    rw [if_pos ⟨trivial, hsym⟩, stepB.eq_def]
    simp only []
    cases hp : st.prev_local_ts with
    | none =>
      simp only []
      rw [stepC]
      simp only []
      rw [hsb, if_neg Bool.false_ne_true, stepD.eq_def]
      simp only []
      rw [hbt]
      simp only []
      rw [if_pos trivial, stepE.eq_def]
      simp only []
      rw [hbs]
      simp only []
      rw [if_neg hneq]
      simp [handleRaises, record_quarantine]
    | some q =>
      simp only []
      rw [if_neg (by have := hple q hp; omega)]
      rw [stepC]
      simp only []
      rw [hsb, if_neg Bool.false_ne_true, stepD.eq_def]
      simp only []
      rw [hbt]
      simp only []
      rw [if_pos trivial, stepE.eq_def]
      simp only []
      rw [hbs]
      simp only []
      rw [if_neg hneq]
      simp [handleRaises, record_quarantine]
  · intro hex hsym hple hsb hbt hbs m hm
    rw [stepRow, stepA.eq_def]
    simp only []
    rw [hex]
    simp only []
    rw [if_pos ⟨trivial, hsym⟩, stepB.eq_def]
    simp only []
    cases hp : st.prev_local_ts with
    | none =>
      simp only []
      rw [stepC]
      simp only []
      rw [hsb, if_neg Bool.false_ne_true, stepD.eq_def]
      simp only []
      rw [hbt]
      simp only []
      rw [if_pos trivial, stepE.eq_def]
      simp only []
      rw [hbs]
      simp only []
      rw [if_pos trivial, stepF.eq_def]
      rcases hm with hqp | ⟨pt, hqp, hqa⟩
      · rw [hqp]
        simp [quantFail, handleRaises, record_quarantine]
      · rw [hqp]
        simp only []
        rw [hqa]
        simp [quantFail, handleRaises, record_quarantine]
    | some q =>
      simp only []
      rw [if_neg (by have := hple q hp; omega)]
      rw [stepC]
      simp only []
      rw [hsb, if_neg Bool.false_ne_true, stepD.eq_def]
      simp only []
      rw [hbt]
      simp only []
      rw [if_pos trivial, stepE.eq_def]
      simp only []
      rw [hbs]
      simp only []
      rw [if_pos trivial, stepF.eq_def]
      rcases hm with hqp | ⟨pt, hqp, hqa⟩
      · rw [hqp]
        simp [quantFail, handleRaises, record_quarantine]
      · rw [hqp]
        simp only []
        rw [hqa]
        simp [quantFail, handleRaises, record_quarantine]

theorem c5_skip_row_witness :
    stepRow FailurePolicy.quarantine QuarantineAction.skip_row true ""
        (fun _ => Except.ok 1) (fun _ => Except.ok 1)
        ⟨some 2000, false, some "ex", some "sym", none, none, none, none,
          none, [], false, [], []⟩
        ⟨"ex", "sym", 11, 1000, false, Side.bid, "1", "1", 2, "s"⟩
      = .ok ⟨some 2000, false, some "ex", some "sym", some "s", none, none,
          none, none, [], false, [],
          [⟨"local_timestamp decreased", "s", 2, some ⟨"ex", "sym", 11,
            1000, false, Side.bid, "1", "1", 2, "s"⟩⟩]⟩ := by
  have h := (c5_skip_row "" (fun _ => Except.ok 1) (fun _ => Except.ok 1)
    ⟨some 2000, false, some "ex", some "sym", none, none, none, none,
      none, [], false, [], []⟩
    ⟨"ex", "sym", 11, 1000, false, Side.bid, "1", "1", 2, "s"⟩).2.1
  exact h rfl rfl 2000 rfl (by decide)

/-! ## Fixed-point quantization: `mm_bt/core/fixedpoint.py` and
`mm_bt/core/decimal_ctx.py`

A finite `decimal.Decimal` is a mantissa/exponent pair (`Dec`), its value
`m·10^e : ℚ`.  The context `DECIMAL_CTX` has 50 significant digits with
banker's rounding: `roundCtx` is the context rounding step that
`Decimal.normalize` and `Decimal.scaleb` apply under `localcontext`.
String parsing (`parse_decimal`) is abstracted: values range over the
finite decimals it can produce. -/

/-- A finite decimal number: coefficient and exponent. -/
structure Dec where
  m : Int
  e : Int
  deriving DecidableEq, Repr

/-- The rational value of a finite decimal. -/
def Dec.val (d : Dec) : ℚ := (d.m : ℚ) * (10 : ℚ) ^ d.e

/-- Round `n / d` (for `d > 0`) to the nearest integer, ties to even
(`ROUND_HALF_EVEN`). -/
def halfEvenInt (n d : Int) : Int :=
  if 2 * (n % d) < d then n / d
  else if d < 2 * (n % d) then n / d + 1
  else if n / d % 2 = 0 then n / d else n / d + 1

/-- Digit counter: `decDigitsAux fuel n` counts the base-10 digits of `n`,
with `fuel` bounding the recursion. -/
def decDigitsAux : Nat → Nat → Nat
  | 0, _ => 0
  | fuel + 1, n => if n = 0 then 0 else decDigitsAux fuel (n / 10) + 1

/-- Number of decimal digits of a natural (`0` for `0`). -/
def decDigits (n : Nat) : Nat := decDigitsAux n n

/-- Context rounding at 50 significant digits with banker's rounding: a
coefficient of more than 50 digits is rounded half-even to 50 digits (the
exponent absorbing the dropped digits). -/
def roundCtx (d : Dec) : Dec :=
  if d.m.natAbs < 10 ^ 50 then d
  else
    ⟨halfEvenInt d.m (10 ^ (decDigits d.m.natAbs - 50)),
      d.e + (decDigits d.m.natAbs - 50)⟩

/-- Strip trailing zeros from the coefficient (the tail of
`Decimal.normalize`); `fuel` bounds the number of strips. -/
def stripZeros : Nat → Int → Int → Dec
  | 0, m, e => ⟨m, e⟩
  | fuel + 1, m, e =>
    if m ≠ 0 ∧ m % 10 = 0 then stripZeros fuel (m / 10) (e + 1) else ⟨m, e⟩

/-- `Decimal.normalize` under `DECIMAL_CTX`: round to the context precision,
then strip trailing zeros (zero collapses to `0E+0`). -/
def normalizeCtx (d : Dec) : Dec :=
  if d.m = 0 then ⟨0, 0⟩
  else
    stripZeros (decDigits (roundCtx d).m.natAbs) (roundCtx d).m (roundCtx d).e

/-- `Decimal.scaleb` under `DECIMAL_CTX`: shift the exponent, then apply
context rounding. -/
def scalebCtx (d : Dec) (k : Int) : Dec := roundCtx ⟨d.m, d.e + k⟩

/-- Whether a finite decimal's value is an integer (the
`scaled != scaled.to_integral_value()` test). -/
def Dec.isIntegral (d : Dec) : Bool :=
  if 0 ≤ d.e then true else d.m % (10 : Int) ^ (-d.e).toNat = 0

/-- `int(...)` of an integral finite decimal. -/
def Dec.toInt (d : Dec) : Int :=
  if 0 ≤ d.e then d.m * (10 : Int) ^ d.e.toNat
  else d.m / (10 : Int) ^ (-d.e).toNat

/-- Embeds `_scaled_int`: scale the value by `10^scale` and require the
result to be an integer. -/
def _scaled_int (value : Dec) (scale : Int) : Except BTError Int :=
  if (scalebCtx value scale).isIntegral then .ok (scalebCtx value scale).toInt
  else .error (.quantization "value has more precision than increment")

/-- Embeds `_normalize_increment`: a non-positive increment is rejected,
otherwise it is normalized under the context. -/
def _normalize_increment (inc : Dec) : Except BTError Dec :=
  if inc.m ≤ 0 then .error (.quantization "increment must be positive")
  else .ok (normalizeCtx inc)

/-- Embeds `_quantize_decimal`: reject zero (unless allowed) and negative
values, scale value and increment to the increment's exponent, require
exact divisibility, and return the integer quotient. -/
def _quantize_decimal (value inc : Dec) (allow_zero : Bool)
    (field : String) : Except BTError Int :=
  if value.m = 0 then
    if allow_zero then .ok 0
    else .error (.quantization (field ++ " must be positive"))
  else if value.m < 0 then
    .error (.quantization (field ++ " must be non-negative"))
  else
    match _scaled_int (normalizeCtx value) (-inc.e) with
    | .error er => .error er
    | .ok scaled_value =>
      match _scaled_int inc (-inc.e) with
      | .error er => .error er
      | .ok scaled_inc =>
        if scaled_inc = 0 then .error (.quantization "increment underflow")
        else if ¬scaled_value % scaled_inc = 0 then
          .error (.quantization (field ++ " not a multiple of increment"))
        else .ok (scaled_value / scaled_inc)

/-- `Quantizer.quantize_price` on an already-parsed finite decimal. -/
def quantize_price (inc value : Dec) : Except BTError Int :=
  _quantize_decimal value inc false "price"

/-- `Quantizer.quantize_amount` on an already-parsed finite decimal. -/
def quantize_amount (inc value : Dec) : Except BTError Int :=
  _quantize_decimal value inc true "amount"

/-- C1 counterexample: with increment 1 (already normalized) and the value
`1 + 10⁻⁵⁰` (51 significant digits, finite and positive but not an integer
multiple of the increment), `quantize_price` SUCCEEDS returning 1 — the
50-digit context rounding inside `normalize()` silently rounds the value —
even though `1 × increment` does not equal the value, contradicting both
the claimed exactness equation and the claimed failure condition. -/
theorem c1_counterexample :
    quantize_price ⟨1, 0⟩ ⟨10 ^ 50 + 1, -50⟩ = .ok 1 ∧
    ¬((1 : ℚ) * Dec.val ⟨1, 0⟩ = Dec.val ⟨10 ^ 50 + 1, -50⟩) := by
  constructor
  · decide
  · rw [Dec.val, Dec.val]
    norm_num

theorem stripZeros_spec (fuel : Nat) : ∀ (m e : Int), m ≠ 0 →
    (stripZeros fuel m e).val = (⟨m, e⟩ : Dec).val ∧
    (stripZeros fuel m e).m ≠ 0 ∧
    (stripZeros fuel m e).m.natAbs ≤ m.natAbs ∧
    (0 < (stripZeros fuel m e).m ↔ 0 < m) := by
  induction fuel with
  | zero => exact fun m e hm => ⟨rfl, hm, le_refl _, Iff.rfl⟩
  | succ f ih =>
    intro m e hm
    rw [stripZeros]
    by_cases hc : m ≠ 0 ∧ m % 10 = 0
    · rw [if_pos hc]
      obtain ⟨c, rfl⟩ := Int.dvd_of_emod_eq_zero hc.2
      have hdivc : (10 : Int) * c / 10 = c :=
        Int.mul_ediv_cancel_left _ (by norm_num)
      have hc0 : c ≠ 0 := by
        intro h
        rw [h, mul_zero] at hm
        exact hm rfl
      rw [hdivc]
      obtain ⟨h1, h2, h3, h4⟩ := ih c (e + 1) hc0
      refine ⟨?_, h2, ?_, ?_⟩
      · rw [h1, Dec.val, Dec.val]
        simp only
        rw [zpow_add₀ (by norm_num : (10 : ℚ) ≠ 0)]
        push_cast
        ring
      · refine le_trans h3 ?_
        rw [Int.natAbs_mul]
        exact Nat.le_mul_of_pos_left _ (by norm_num)
      · rw [h4]
        constructor <;> intro h <;> omega
    · rw [if_neg hc]
      exact ⟨rfl, hm, le_refl _, Iff.rfl⟩

theorem normalizeCtx_spec (d : Dec) (hm : d.m ≠ 0)
    (hs : d.m.natAbs < 10 ^ 50) :
    (normalizeCtx d).val = d.val ∧ (normalizeCtx d).m ≠ 0 ∧
    (normalizeCtx d).m.natAbs < 10 ^ 50 ∧
    (0 < (normalizeCtx d).m ↔ 0 < d.m) := by
  rw [normalizeCtx, if_neg hm, roundCtx, if_pos hs]
  obtain ⟨h1, h2, h3, h4⟩ := stripZeros_spec (decDigits d.m.natAbs) d.m d.e hm
  exact ⟨h1, h2, lt_of_le_of_lt h3 hs, h4⟩

theorem dec_int_spec (d : Dec) :
    (d.isIntegral = true → (d.toInt : ℚ) = d.val) ∧
    (∀ z : Int, (z : ℚ) = d.val → d.isIntegral = true) := by
  rw [Dec.isIntegral, Dec.toInt, Dec.val]
  by_cases he : 0 ≤ d.e
  · rw [if_pos he, if_pos he]
    constructor
    · intro _
      push_cast
      rw [← zpow_natCast (10 : ℚ) d.e.toNat, Int.toNat_of_nonneg he]
    · intro z _
      rfl
  · rw [if_neg he, if_neg he]
    have hz : (10 : ℚ) ^ d.e = ((10 : ℚ) ^ (-d.e).toNat)⁻¹ := by
      rw [← zpow_natCast (10 : ℚ) (-d.e).toNat]
      rw [← zpow_neg]
      rw [Int.toNat_of_nonneg (by omega : (0 : Int) ≤ -d.e)]
      rw [neg_neg]
    have h10 : ((10 : ℚ) ^ (-d.e).toNat) ≠ 0 := by positivity
    constructor
    · intro hdvd
      rw [decide_eq_true_eq] at hdvd
      obtain ⟨c, hcm⟩ := Int.dvd_of_emod_eq_zero hdvd
      rw [hcm, Int.mul_ediv_cancel_left _ (by positivity), hz]
      push_cast
      field_simp
    · intro z hzq
      rw [decide_eq_true_eq]
      rw [hz] at hzq
      have hq : (z : ℚ) * (10 : ℚ) ^ (-d.e).toNat = (d.m : ℚ) := by
        rw [hzq]
        field_simp
      have hint : z * 10 ^ (-d.e).toNat = d.m := by exact_mod_cast hq
      rw [← hint]
      exact Int.mul_emod_left z _

theorem scalebCtx_small (d : Dec) (hs : d.m.natAbs < 10 ^ 50) (k : Int) :
    scalebCtx d k = ⟨d.m, d.e + k⟩ := by
  rw [scalebCtx, roundCtx]
  exact if_pos hs

theorem scaled_int_spec (d : Dec) (hs : d.m.natAbs < 10 ^ 50) (scale : Int) :
    (∃ z : Int, _scaled_int d scale = .ok z ∧
      (z : ℚ) = d.val * (10 : ℚ) ^ scale) ∨
    (_scaled_int d scale
        = .error (.quantization "value has more precision than increment") ∧
      ∀ z : Int, ¬((z : ℚ) = d.val * (10 : ℚ) ^ scale)) := by
  have hval : (⟨d.m, d.e + scale⟩ : Dec).val = d.val * (10 : ℚ) ^ scale := by
    rw [Dec.val, Dec.val]
    simp only
    rw [zpow_add₀ (by norm_num : (10 : ℚ) ≠ 0)]
    ring
  rw [_scaled_int, scalebCtx_small d hs scale]
  obtain ⟨hto, hdet⟩ := dec_int_spec ⟨d.m, d.e + scale⟩
  by_cases hi : (⟨d.m, d.e + scale⟩ : Dec).isIntegral = true
  · rw [if_pos hi]
    exact Or.inl ⟨_, rfl, by rw [hto hi, hval]⟩
  · rw [if_neg hi]
    refine Or.inr ⟨rfl, ?_⟩
    intro z hzeq
    exact hi (hdet z (by rw [hval]; exact hzeq))

theorem scaled_inc_val (inc : Dec) (hs : inc.m.natAbs < 10 ^ 50) :
    _scaled_int inc (-inc.e) = .ok inc.m := by
  rw [_scaled_int, scalebCtx_small inc hs (-inc.e)]
  have he0 : inc.e + -inc.e = 0 := by omega
  rw [he0]
  rw [if_pos (by rw [Dec.isIntegral]; exact if_pos (le_refl 0))]
  rw [Dec.toInt, if_pos (le_refl (0 : Int))]
  simp

theorem quantize_core (value inc : Dec) (az : Bool) (field : String)
    (hincpos : 0 < inc.m) (hincsize : inc.m.natAbs < 10 ^ 50)
    (hvsize : value.m.natAbs < 10 ^ 50) (hvpos : 0 < value.m) :
    ∀ t : Int, _quantize_decimal value inc az field = .ok t ↔
      (t : ℚ) * inc.val = value.val := by
  intro t
  rw [_quantize_decimal]
  rw [if_neg (by omega : ¬value.m = 0), if_neg (by omega : ¬value.m < 0)]
  obtain ⟨hNval, hNne, hNsize, hNpos⟩ :=
    normalizeCtx_spec value (by omega) hvsize
  have h10e : ((10 : ℚ) ^ inc.e) ≠ 0 := zpow_ne_zero _ (by norm_num)
  have h10ne : ((10 : ℚ) ^ (-inc.e)) ≠ 0 := zpow_ne_zero _ (by norm_num)
  have h10prod : (10 : ℚ) ^ inc.e * (10 : ℚ) ^ (-inc.e) = 1 := by
    rw [← zpow_add₀ (by norm_num : (10 : ℚ) ≠ 0)]
    simp
  have hincm : (inc.m : ℚ) ≠ 0 := by
    exact_mod_cast (by omega : inc.m ≠ 0)
  rcases scaled_int_spec (normalizeCtx value) hNsize (-inc.e) with
    ⟨z, hok, hzq⟩ | ⟨herr, hnone⟩
  · rw [hok]
    simp only []
    rw [scaled_inc_val inc hincsize]
    simp only []
    rw [if_neg (by omega : ¬inc.m = 0)]
    rw [hNval] at hzq
    have hkey : ((t : ℚ) * inc.val = value.val) ↔ t * inc.m = z := by
      rw [Dec.val]
      constructor
      · intro h
        have h2 : (t : ℚ) * ((inc.m : ℚ) * (10 : ℚ) ^ inc.e)
            * (10 : ℚ) ^ (-inc.e) = value.val * (10 : ℚ) ^ (-inc.e) := by
          rw [h]
        rw [← hzq] at h2
        have h3 : ((t * inc.m : Int) : ℚ) = (z : ℚ) := by
          push_cast
          calc ((t : ℚ) * inc.m)
              = (t : ℚ) * ((inc.m : ℚ) * (10 : ℚ) ^ inc.e)
                * (10 : ℚ) ^ (-inc.e) := by
                linear_combination (-((t : ℚ) * (inc.m : ℚ))) * h10prod
            _ = (z : ℚ) := h2
        exact_mod_cast h3
      · intro h
        have h3 : ((t : ℚ) * (inc.m : ℚ)) = (z : ℚ) := by
          exact_mod_cast congrArg (fun x : Int => (x : ℚ)) h
        have h4 : value.val = (z : ℚ) * (10 : ℚ) ^ inc.e := by
          have := congrArg (fun x : ℚ => x * (10 : ℚ) ^ inc.e) hzq
          simp only at this
          rw [mul_assoc, mul_comm ((10 : ℚ) ^ (-inc.e)), h10prod,
            mul_one] at this
          exact this.symm
        rw [h4, ← h3]
        ring
    by_cases hdvd : z % inc.m = 0
    · rw [if_neg (not_not_intro hdvd)]
      constructor
      · intro hok2
        injection hok2 with ht
        refine hkey.mpr ?_
        rw [← ht]
        exact Int.ediv_mul_cancel (Int.dvd_of_emod_eq_zero hdvd)
      · intro hq
        have ht := hkey.mp hq
        have : z / inc.m = t := by
          rw [← ht]
          exact Int.mul_ediv_cancel t (by omega)
        rw [this]
    · rw [if_pos hdvd]
      constructor
      · intro h
        exact absurd h (by simp)
      · intro hq
        exfalso
        have ht := hkey.mp hq
        rw [← ht] at hdvd
        exact hdvd (Int.mul_emod_left t inc.m)
  · rw [herr]
    simp only []
    constructor
    · intro h
      exact absurd h (by simp)
    · intro hq
      exfalso
      apply hnone (t * inc.m)
      rw [hNval]
      push_cast
      rw [Dec.val] at hq
      calc ((t : ℚ) * inc.m)
          = (t : ℚ) * ((inc.m : ℚ) * (10 : ℚ) ^ inc.e)
            * (10 : ℚ) ^ (-inc.e) := by
            linear_combination (-((t : ℚ) * (inc.m : ℚ))) * h10prod
        _ = value.val * (10 : ℚ) ^ (-inc.e) := by rw [hq]

/-- C1 (amended): for a normalized positive increment and any finite
decimal value of at most 50 significant digits (so that the 50-digit
context rounding inside `normalize`/`scaleb` is the identity):
`quantize_price` returns `t` exactly when the value is positive and
`t × price_increment == value` exactly, and fails otherwise (value ≤ 0 or
not an exact integer multiple); `quantize_amount` behaves the same except
that the value 0 is accepted and returns 0, and negative values are
rejected.  (For values with more than 50 significant digits the context
rounding can make `quantize_price` succeed on a non-multiple, see the
counterexample.) -/
theorem c1_quantizer (inc value : Dec)
    (hincpos : 0 < inc.m) (hincsize : inc.m.natAbs < 10 ^ 50)
    (hvsize : value.m.natAbs < 10 ^ 50) :
    (∀ t : Int, quantize_price inc value = .ok t ↔
      (0 < value.m ∧ (t : ℚ) * inc.val = value.val)) ∧
    (value.m = 0 → quantize_amount inc value = .ok 0) ∧
    (value.m < 0 → quantize_amount inc value
      = .error (.quantization "amount must be non-negative")) ∧
    (∀ t : Int, 0 < value.m →
      (quantize_amount inc value = .ok t ↔
        (t : ℚ) * inc.val = value.val)) := by
  refine ⟨?_, ?_, ?_, ?_⟩
  · intro t
    by_cases h0 : value.m = 0
    · rw [quantize_price, _quantize_decimal, if_pos h0]
      constructor
      · intro h
        simp at h
      · rintro ⟨hpos, -⟩
        omega
    · by_cases hneg : value.m < 0
      · rw [quantize_price, _quantize_decimal, if_neg h0, if_pos hneg]
        constructor
        · intro h
          simp at h
        · rintro ⟨hpos, -⟩
          omega
      · have hpos : 0 < value.m := by omega
        rw [quantize_price,
          quantize_core value inc false "price" hincpos hincsize hvsize
            hpos t]
        constructor
        · intro h
          exact ⟨hpos, h⟩
        · rintro ⟨-, h⟩
          exact h
  · intro h0
    rw [quantize_amount, _quantize_decimal, if_pos h0]
    rfl
  · intro hneg
    rw [quantize_amount, _quantize_decimal, if_neg (by omega), if_pos hneg]
    decide
  · intro t hpos
    rw [quantize_amount]
    exact quantize_core value inc true "amount" hincpos hincsize hvsize
      hpos t

theorem c1_quantizer_witness :
    0 < (⟨1, 0⟩ : Dec).m ∧ (⟨1, 0⟩ : Dec).m.natAbs < 10 ^ 50 ∧
    (⟨5, 0⟩ : Dec).m.natAbs < 10 ^ 50 ∧
    (quantize_price ⟨1, 0⟩ ⟨5, 0⟩ = .ok 5 ↔
      (0 < (⟨5, 0⟩ : Dec).m ∧
        ((5 : Int) : ℚ) * Dec.val ⟨1, 0⟩ = Dec.val ⟨5, 0⟩)) := by
  refine ⟨by decide, by decide, by decide, ?_⟩
  exact (c1_quantizer ⟨1, 0⟩ ⟨5, 0⟩ (by decide) (by decide) (by decide)).1 5
